import Mathlib

/-!
Path items of an OpenAPI document (`openapi3/path_item.go`, `openapi3/errors/error.go`).

A shallow embedding of the `PathItem` type of `extrame/kin-openapi` and of its methods
(`MarshalJSON`, `UnmarshalJSON`, `Operations`, `MustGetOperation`, `GetOperation`,
`SetOperation`, `Validate`), followed by theorems about them.

Conventions of the embedding:

* a Go pointer `*Operation` is an `Option Operation` (`nil` is `none`);
* a Go `map[string]V` is an association list with lookup semantics (`GoMap`); a nil map and an
  empty map are both `[]`, as are a nil slice and an empty slice;
* a Go `panic` is the `.error` case of an `Except String _` result;
* a Go `error` result is an `Option` (`nil` is `none`);
* the collaborators that are not part of these two files (the `Operation`, `Server` and
  `Parameter` types, their codecs and validators, the validation context) are parameters;
* the bytes that `encoding/json` reads and writes are the JSON document they denote (`Json`):
  the concrete syntax, and with it the input that is not JSON at all, is outside the model,
  and so are Go strings that are not valid UTF-8 and numbers that are not integers;
  the decoding of a document into a struct follows `encoding/json`: members are decoded in
  document order, a key selects the field of that exact name or else the field whose name
  matches ignoring case, and unknown keys are skipped.
-/

namespace openapi3

/-! ## Go maps with string keys -/

/-- A Go `map[string]V`: an association list read through `GoMap.get` (first match wins).
A list in which no key occurs twice lists the entries of the map; `set` and `delete` keep
this property. -/
abbrev GoMap (V : Type) := List (String × V)

namespace GoMap

variable {V W : Type}

/-- The map index expression `m[k]` in its two-valued form (`none`: no entry). -/
def get : GoMap V → String → Option V
  | [], _ => none
  | (k', v) :: m, k => if k' = k then some v else get m k

/-- The builtin `delete(m, k)`. -/
def delete (m : GoMap V) (k : String) : GoMap V :=
  m.filter (fun e => decide (e.1 ≠ k))

/-- The assignment `m[k] = v`. -/
def set (m : GoMap V) (k : String) (v : V) : GoMap V :=
  (k, v) :: delete m k

/-- The keys of the map, in the order in which a `range` loop of the model visits them. -/
def keys (m : GoMap V) : List String :=
  m.map Prod.fst

/-- The map with every value replaced by its image. -/
def mapValues (f : V → W) (m : GoMap V) : GoMap W :=
  m.map (fun e => (e.1, f e.2))

end GoMap

/-! ## Constants of `net/http` and helpers of the standard library -/

namespace http

abbrev MethodConnect : String := "CONNECT"
abbrev MethodDelete : String := "DELETE"
abbrev MethodGet : String := "GET"
abbrev MethodHead : String := "HEAD"
abbrev MethodOptions : String := "OPTIONS"
abbrev MethodPatch : String := "PATCH"
abbrev MethodPost : String := "POST"
abbrev MethodPut : String := "PUT"
abbrev MethodTrace : String := "TRACE"

end http

namespace strconv

/-- One character of a `%q`-quoted string: the double quote and the backslash are escaped.
(Go also escapes control and non-printable characters; those are left as they are here.) -/
def quoteChar (c : Char) : List Char :=
  if c = Char.ofNat 34 ∨ c = Char.ofNat 92 then [Char.ofNat 92, c] else [c]

/-- The verb `%q` applied to a string. -/
def Quote (s : String) : String :=
  String.mk (Char.ofNat 34 :: (s.toList.flatMap quoteChar ++ [Char.ofNat 34]))

end strconv

/-! ## Package `errors` -/

namespace errors

/-- Operation errors: `10000 + iota`, first constant of the block. -/
def NoSuchHTTPMethod : Int := 10000 + 0
/-- Operation errors: `10000 + iota`, second constant of the block. -/
def NoSuchOperationIsDefinedInPath : Int := 10000 + 1
/-- Validation errors: `20000 + iota`, first constant of the block. -/
def NoResponseIsDefined : Int := 20000 + 0
/-- Validation errors: `20000 + iota`, second constant of the block. -/
def NoResponseCodeInResponses : Int := 20000 + 1

/-- The struct `Error`. -/
structure Error where
  Message : String
  Code : Int
  deriving DecidableEq, Repr

/-- The constructor `New(code, message)`. -/
def New (code : Int) (message : String) : Error :=
  { Message := message, Code := code }

/-- The constructor `Errorf(code, format, args...)`; `message` is the formatted text. -/
def Errorf (code : Int) (message : String) : Error :=
  { Message := message, Code := code }

set_option linter.dupNamespace false in
/-- The method `Error()`: the text `[code]message`. -/
def Error.Error (e : Error) : String :=
  "[" ++ toString e.Code ++ "]" ++ e.Message

end errors

/-! ## Generic JSON values -/

/-- A JSON document, and also the Go value that `encoding/json` decodes it to when the target
is an `interface{}`: `nil`, `bool`, `float64`, `string`, `[]interface{}` and
`map[string]interface{}`. An object keeps its members in document order. A number is an
integer: in a document it is the value of the literal, in a Go value it is the value of the
`float64` (`json.valueInterface` turns the one into the other). A string is valid UTF-8 text:
a Go string that is not valid UTF-8, which `json.Marshal` rewrites, has no term here. -/
inductive Json where
  | null
  | bool (b : Bool)
  | number (n : Int)
  | string (s : String)
  | array (xs : List Json)
  | object (kvs : List (String × Json))
  deriving Repr

/-! ## The path item -/

/-- The struct `PathItem`. Its strings are valid UTF-8 text, and its extension values are
`Json` values. -/
structure PathItem (Operation Server Parameter : Type) where
  Extensions : GoMap Json := []
  Ref : String := ""
  Summary : String := ""
  Description : String := ""
  Connect : Option Operation := none
  Delete : Option Operation := none
  Get : Option Operation := none
  Head : Option Operation := none
  Options : Option Operation := none
  Patch : Option Operation := none
  Post : Option Operation := none
  Put : Option Operation := none
  Trace : Option Operation := none
  Servers : List Server := []
  Parameters : List Parameter := []

namespace PathItem

variable {Operation Server Parameter : Type}

/-- The method `Operations`: the populated slots, keyed by upper-case method name. -/
def Operations (pathItem : PathItem Operation Server Parameter) : GoMap Operation :=
  let operations : GoMap Operation := []
  let operations := match pathItem.Connect with
    | some v => operations.set http.MethodConnect v
    | none => operations
  let operations := match pathItem.Delete with
    | some v => operations.set http.MethodDelete v
    | none => operations
  let operations := match pathItem.Get with
    | some v => operations.set http.MethodGet v
    | none => operations
  let operations := match pathItem.Head with
    | some v => operations.set http.MethodHead v
    | none => operations
  let operations := match pathItem.Options with
    | some v => operations.set http.MethodOptions v
    | none => operations
  let operations := match pathItem.Patch with
    | some v => operations.set http.MethodPatch v
    | none => operations
  let operations := match pathItem.Post with
    | some v => operations.set http.MethodPost v
    | none => operations
  let operations := match pathItem.Put with
    | some v => operations.set http.MethodPut v
    | none => operations
  let operations := match pathItem.Trace with
    | some v => operations.set http.MethodTrace v
    | none => operations
  operations

/-- The method `MustGetOperation`; `.error` is the panic of the `default` branch. -/
def MustGetOperation (pathItem : PathItem Operation Server Parameter) (method : String) :
    Except String (Option Operation) :=
  if method = http.MethodConnect then .ok pathItem.Connect
  else if method = http.MethodDelete then .ok pathItem.Delete
  else if method = http.MethodGet then .ok pathItem.Get
  else if method = http.MethodHead then .ok pathItem.Head
  else if method = http.MethodOptions then .ok pathItem.Options
  else if method = http.MethodPatch then .ok pathItem.Patch
  else if method = http.MethodPost then .ok pathItem.Post
  else if method = http.MethodPut then .ok pathItem.Put
  else if method = http.MethodTrace then .ok pathItem.Trace
  else .error ("unsupported HTTP method " ++ strconv.Quote method)

/-- The `switch` of `GetOperation`: the slot read for `method`, or `none` in the `default`
branch. -/
def getOperationSlot (pathItem : PathItem Operation Server Parameter) (method : String) :
    Option (Option Operation) :=
  if method = http.MethodDelete then some pathItem.Delete
  else if method = http.MethodGet then some pathItem.Get
  else if method = http.MethodHead then some pathItem.Head
  else if method = http.MethodOptions then some pathItem.Options
  else if method = http.MethodPatch then some pathItem.Patch
  else if method = http.MethodPost then some pathItem.Post
  else if method = http.MethodPut then some pathItem.Put
  else none

/-- The method `GetOperation`: the pair of results `(*Operation, error)`. -/
def GetOperation (pathItem : PathItem Operation Server Parameter) (method : String) :
    Option Operation × Option errors.Error :=
  match getOperationSlot pathItem method with
  | none =>
    (none, some (errors.Errorf errors.NoSuchHTTPMethod
      ("unsupported HTTP method " ++ strconv.Quote method)))
  | some none =>
    (none, some (errors.Errorf errors.NoSuchOperationIsDefinedInPath
      ("no HTTP method " ++ strconv.Quote method ++ " is defined")))
  | some (some op) => (some op, none)

/-- The method `SetOperation`: the receiver after the call; `.error` is the panic of the
`default` branch. -/
def SetOperation (pathItem : PathItem Operation Server Parameter) (method : String)
    (operation : Option Operation) : Except String (PathItem Operation Server Parameter) :=
  if method = http.MethodConnect then .ok { pathItem with Connect := operation }
  else if method = http.MethodDelete then .ok { pathItem with Delete := operation }
  else if method = http.MethodGet then .ok { pathItem with Get := operation }
  else if method = http.MethodHead then .ok { pathItem with Head := operation }
  else if method = http.MethodOptions then .ok { pathItem with Options := operation }
  else if method = http.MethodPatch then .ok { pathItem with Patch := operation }
  else if method = http.MethodPost then .ok { pathItem with Post := operation }
  else if method = http.MethodPut then .ok { pathItem with Put := operation }
  else if method = http.MethodTrace then .ok { pathItem with Trace := operation }
  else .error ("unsupported HTTP method " ++ strconv.Quote method)

end PathItem

/-- The nine method names that `SetOperation` and `MustGetOperation` recognise. -/
def recognizedMethods : List String :=
  [http.MethodConnect, http.MethodDelete, http.MethodGet, http.MethodHead, http.MethodOptions,
   http.MethodPatch, http.MethodPost, http.MethodPut, http.MethodTrace]

/-- The seven method names that `GetOperation` has a case for. -/
def getOperationMethods : List String :=
  [http.MethodDelete, http.MethodGet, http.MethodHead, http.MethodOptions,
   http.MethodPatch, http.MethodPost, http.MethodPut]

/-! ## Package `sort` -/

namespace sort

/-- The order of `sort.Strings`: strings compared byte by byte, which for UTF-8 text is the
lexicographic order of the lists of code points. -/
def le (a b : String) : Prop := a.toList ≤ b.toList

instance : DecidableRel le := fun a b => inferInstanceAs (Decidable (a.toList ≤ b.toList))

/-- The strict order `x[i] < x[j]` of `sort.StringSlice.Less`. -/
def lt (a b : String) : Prop := a.toList < b.toList

instance : DecidableRel lt := fun a b => inferInstanceAs (Decidable (a.toList < b.toList))

instance : IsTotal String le := ⟨fun a b => le_total a.toList b.toList⟩

instance : IsTrans String le :=
  ⟨fun a b c (h₁ : a.toList ≤ b.toList) (h₂ : b.toList ≤ c.toList) => le_trans h₁ h₂⟩

instance : IsAntisymm String le :=
  ⟨fun _ _ (h₁ : _ ≤ _) (h₂ : _ ≤ _) => String.ext (le_antisymm h₁ h₂)⟩

/-- The function `sort.Strings`: the strings in increasing order. -/
def Strings (xs : List String) : List String :=
  xs.insertionSort le

end sort

/-! ## Encoding -/

/-- The Go values that `MarshalJSON` stores in the map it hands to `json.Marshal`: a plain
value (an extension value, or a string), a non-nil `*Operation`, a `Servers` slice, a
`Parameters` slice. -/
inductive Value (Operation Server Parameter : Type) where
  | json (j : Json)
  | operation (op : Operation)
  | servers (xs : List Server)
  | parameters (xs : List Parameter)

/-- The JSON codecs of the collaborators: `Operation` behind a pointer, and the elements of
`Servers` and of `Parameters`. The encoders are total: every value of the model has a JSON
form. -/
structure Codec (Operation Server Parameter : Type) where
  marshalOperation : Operation → Json
  unmarshalOperation : Json → Except String Operation
  marshalServer : Server → Json
  unmarshalServer : Json → Except String Server
  marshalParameter : Parameter → Json
  unmarshalParameter : Json → Except String Parameter

namespace json

variable {Operation Server Parameter : Type}

/-- The encoding of one value of the map. -/
def encodeValue (C : Codec Operation Server Parameter) :
    Value Operation Server Parameter → Json
  | .json j => j
  | .operation op => C.marshalOperation op
  | .servers xs => .array (xs.map C.marshalServer)
  | .parameters xs => .array (xs.map C.marshalParameter)

/-- The members of an encoded map in the order in which `json.Marshal` writes them: sorted
by key. -/
def sortMembers (kvs : List (String × Json)) : List (String × Json) :=
  kvs.insertionSort (fun a b => sort.le a.1 b.1)

/-- The function `json.Marshal` on a `map[string]interface{}`; its error result is always
nil here and is left out. -/
def Marshal (C : Codec Operation Server Parameter)
    (m : GoMap (Value Operation Server Parameter)) : Json :=
  .object (sortMembers (m.mapValues (encodeValue C)))

end json

/-- Modelled from the spec: the struct `Ref`, declared outside these two files, as the keyed
mapping that `json.Marshal` sees: the single member `$ref`, never omitted. -/
def Ref {Operation Server Parameter : Type} (ref : String) :
    GoMap (Value Operation Server Parameter) :=
  [("$ref", .json (.string ref))]

namespace PathItem

variable {Operation Server Parameter : Type}

/-- The map `m` that `MarshalJSON` builds when `Ref` is empty: the copy of the extensions
made by the `range` loop, then the thirteen conditional assignments. -/
def marshalMap (pathItem : PathItem Operation Server Parameter) :
    GoMap (Value Operation Server Parameter) :=
  let m : GoMap (Value Operation Server Parameter) := pathItem.Extensions.mapValues .json
  let m := if pathItem.Summary ≠ "" then m.set "summary" (.json (.string pathItem.Summary))
    else m
  let m := if pathItem.Description ≠ "" then
      m.set "description" (.json (.string pathItem.Description))
    else m
  let m := match pathItem.Connect with
    | some x => m.set "connect" (.operation x)
    | none => m
  let m := match pathItem.Delete with
    | some x => m.set "delete" (.operation x)
    | none => m
  let m := match pathItem.Get with
    | some x => m.set "get" (.operation x)
    | none => m
  let m := match pathItem.Head with
    | some x => m.set "head" (.operation x)
    | none => m
  let m := match pathItem.Options with
    | some x => m.set "options" (.operation x)
    | none => m
  let m := match pathItem.Patch with
    | some x => m.set "patch" (.operation x)
    | none => m
  let m := match pathItem.Post with
    | some x => m.set "post" (.operation x)
    | none => m
  let m := match pathItem.Put with
    | some x => m.set "put" (.operation x)
    | none => m
  let m := match pathItem.Trace with
    | some x => m.set "trace" (.operation x)
    | none => m
  let m := if pathItem.Servers.length ≠ 0 then m.set "servers" (.servers pathItem.Servers)
    else m
  let m := if pathItem.Parameters.length ≠ 0 then
      m.set "parameters" (.parameters pathItem.Parameters)
    else m
  m

/-- The statement `if x := s; x != "" { m[key] = x }`. -/
def putString (m : GoMap (Value Operation Server Parameter)) (key x : String) :
    GoMap (Value Operation Server Parameter) :=
  if x ≠ "" then m.set key (.json (.string x)) else m

/-- The statement `if x := op; x != nil { m[key] = x }`. -/
def putOperation (m : GoMap (Value Operation Server Parameter)) (key : String)
    (x : Option Operation) : GoMap (Value Operation Server Parameter) :=
  match x with
  | some x => m.set key (.operation x)
  | none => m

/-- The statement `if x := v; len(x) != 0 { m[key] = x }` with `v` the value of a slice. -/
def putSlice {α : Type} (wrap : List α → Value Operation Server Parameter)
    (m : GoMap (Value Operation Server Parameter)) (key : String) (x : List α) :
    GoMap (Value Operation Server Parameter) :=
  if x.length ≠ 0 then m.set key (wrap x) else m

/-- The value that the specification emits for a named field under its lowercase key: none
when the field has its default value (empty string, nil operation, empty sequence), and none
for a key that names no field. -/
def namedField (n : PathItem Operation Server Parameter) (key : String) :
    Option (Value Operation Server Parameter) :=
  if key = "summary" then (if n.Summary ≠ "" then some (.json (.string n.Summary)) else none)
  else if key = "description" then
    (if n.Description ≠ "" then some (.json (.string n.Description)) else none)
  else if key = "connect" then n.Connect.map .operation
  else if key = "delete" then n.Delete.map .operation
  else if key = "get" then n.Get.map .operation
  else if key = "head" then n.Head.map .operation
  else if key = "options" then n.Options.map .operation
  else if key = "patch" then n.Patch.map .operation
  else if key = "post" then n.Post.map .operation
  else if key = "put" then n.Put.map .operation
  else if key = "trace" then n.Trace.map .operation
  else if key = "servers" then (if n.Servers.length ≠ 0 then some (.servers n.Servers) else none)
  else if key = "parameters" then
    (if n.Parameters.length ≠ 0 then some (.parameters n.Parameters) else none)
  else none

/-- The mapping of the specification: the extensions, overlaid with the named fields that
are not default; a named field wins over an extension of the same key. -/
def overlay (n : PathItem Operation Server Parameter) (key : String) :
    Option (Value Operation Server Parameter) :=
  match namedField n key with
  | some v => some v
  | none => (n.Extensions.get key).map .json

/-- The method `MarshalJSON`: the encoded document. -/
def MarshalJSON (C : Codec Operation Server Parameter)
    (pathItem : PathItem Operation Server Parameter) : Json :=
  if pathItem.Ref ≠ "" then json.Marshal C (openapi3.Ref pathItem.Ref)
  else json.Marshal C pathItem.marshalMap

end PathItem

/-! ## Decoding -/

/-- The fields of `PathItem` that have a JSON name: all but `Extensions`, whose tag is `-`. -/
inductive Field where
  | Ref | Summary | Description | Connect | Delete | Get | Head | Options | Patch | Post | Put
  | Trace | Servers | Parameters
  deriving DecidableEq, Repr

/-- The name of a field in its `json` tag. -/
def Field.key : Field → String
  | .Ref => "$ref"
  | .Summary => "summary"
  | .Description => "description"
  | .Connect => "connect"
  | .Delete => "delete"
  | .Get => "get"
  | .Head => "head"
  | .Options => "options"
  | .Patch => "patch"
  | .Post => "post"
  | .Put => "put"
  | .Trace => "trace"
  | .Servers => "servers"
  | .Parameters => "parameters"

/-- The fields in the order of the struct. -/
def Field.all : List Field :=
  [.Ref, .Summary, .Description, .Connect, .Delete, .Get, .Head, .Options, .Patch, .Post, .Put,
   .Trace, .Servers, .Parameters]

/-- The error of `json.Unmarshal`: a JSON value that does not fit the Go type of the named
field (`*json.UnmarshalTypeError`; the field is empty for the document itself), or the error
returned by the decoder of a collaborator. -/
inductive DecodeError where
  | typeMismatch (field : String)
  | collaborator (msg : String)
  deriving DecidableEq, Repr

namespace json

variable {Operation Server Parameter α : Type}

/-- Simple case folding of one character, as far as it can reach an ASCII letter: the ASCII
capitals, the long s (U+017F) and the Kelvin sign (U+212A). -/
def foldRune (c : Char) : Char :=
  if c = Char.ofNat 0x17F then 's' else if c = Char.ofNat 0x212A then 'k' else c.toLower

/-- The folded form of a name: two names match ignoring case when their folded forms are
equal. -/
def foldName (s : String) : List Char :=
  s.toList.map foldRune

/-- The field that an object key is decoded into: the field of that exact name, else the
first field whose name matches ignoring case, else none (the member is skipped). -/
def findField (key : String) : Option Field :=
  match Field.all.find? (fun f => decide (f.key = key)) with
  | some f => some f
  | none => Field.all.find? (fun f => decide (foldName f.key = foldName key))

/-- The decoder keeps the first type error and goes on. -/
def saveError (saved : Option DecodeError) (err : DecodeError) : Option DecodeError :=
  match saved with
  | some e => some e
  | none => some err

/-- Decoding a value into a `string` field: a JSON string is stored, `null` leaves the field
as it is, any other value is a type error. -/
def storeString (set : String → PathItem Operation Server Parameter)
    (x : PathItem Operation Server Parameter) (saved : Option DecodeError) (field : String) :
    Json → Except DecodeError (PathItem Operation Server Parameter × Option DecodeError)
  | .string s => .ok (set s, saved)
  | .null => .ok (x, saved)
  | _ => .ok (x, saveError saved (.typeMismatch field))

/-- Decoding a value into a `*Operation` field: `null` stores nil, any other value goes to the
decoder of `Operation`, whose error ends the decoding. -/
def storeOperation (C : Codec Operation Server Parameter)
    (set : Option Operation → PathItem Operation Server Parameter)
    (saved : Option DecodeError) :
    Json → Except DecodeError (PathItem Operation Server Parameter × Option DecodeError)
  | .null => .ok (set none, saved)
  | j =>
    match C.unmarshalOperation j with
    | .ok op => .ok (set (some op), saved)
    | .error e => .error (.collaborator e)

/-- Decoding the elements of an array one after the other. -/
def decodeElements (unmarshal : Json → Except String α) : List Json → Except String (List α)
  | [] => .ok []
  | j :: js =>
    match unmarshal j with
    | .error e => .error e
    | .ok a =>
      match decodeElements unmarshal js with
      | .error e => .error e
      | .ok as => .ok (a :: as)

/-- Decoding a value into a slice field: `null` stores nil, an array is decoded element by
element, any other value is a type error. -/
def storeSlice (unmarshal : Json → Except String α)
    (set : List α → PathItem Operation Server Parameter)
    (x : PathItem Operation Server Parameter) (saved : Option DecodeError) (field : String) :
    Json → Except DecodeError (PathItem Operation Server Parameter × Option DecodeError)
  | .null => .ok (set [], saved)
  | .array js =>
    match decodeElements unmarshal js with
    | .ok xs => .ok (set xs, saved)
    | .error e => .error (.collaborator e)
  | _ => .ok (x, saveError saved (.typeMismatch field))

/-- Decoding one member of the object into the struct. -/
def decodeMember (C : Codec Operation Server Parameter)
    (st : PathItem Operation Server Parameter × Option DecodeError) (key : String)
    (value : Json) :
    Except DecodeError (PathItem Operation Server Parameter × Option DecodeError) :=
  let x := st.1
  let saved := st.2
  match findField key with
  | none => .ok st
  | some .Ref => storeString (fun s => { x with Ref := s }) x saved "$ref" value
  | some .Summary => storeString (fun s => { x with Summary := s }) x saved "summary" value
  | some .Description =>
    storeString (fun s => { x with Description := s }) x saved "description" value
  | some .Connect => storeOperation C (fun o => { x with Connect := o }) saved value
  | some .Delete => storeOperation C (fun o => { x with Delete := o }) saved value
  | some .Get => storeOperation C (fun o => { x with Get := o }) saved value
  | some .Head => storeOperation C (fun o => { x with Head := o }) saved value
  | some .Options => storeOperation C (fun o => { x with Options := o }) saved value
  | some .Patch => storeOperation C (fun o => { x with Patch := o }) saved value
  | some .Post => storeOperation C (fun o => { x with Post := o }) saved value
  | some .Put => storeOperation C (fun o => { x with Put := o }) saved value
  | some .Trace => storeOperation C (fun o => { x with Trace := o }) saved value
  | some .Servers =>
    storeSlice C.unmarshalServer (fun l => { x with Servers := l }) x saved "servers" value
  | some .Parameters =>
    storeSlice C.unmarshalParameter (fun l => { x with Parameters := l }) x saved
      "parameters" value

/-- Decoding the members of the object in document order. -/
def decodeMembers (C : Codec Operation Server Parameter) :
    PathItem Operation Server Parameter × Option DecodeError → List (String × Json) →
    Except DecodeError (PathItem Operation Server Parameter × Option DecodeError)
  | st, [] => .ok st
  | st, (key, value) :: rest =>
    match decodeMember C st key value with
    | .error e => .error e
    | .ok st' => decodeMembers C st' rest

/-- The function `json.Unmarshal(data, &x)` for a struct `x` of type `PathItemBis`: the
struct after a successful decoding, or the error. `null` leaves the struct as it is; a
document that is not an object is a type error. -/
def unmarshalStruct (C : Codec Operation Server Parameter)
    (x : PathItem Operation Server Parameter) :
    Json → Except DecodeError (PathItem Operation Server Parameter)
  | .null => .ok x
  | .object kvs =>
    match decodeMembers C (x, none) kvs with
    | .error e => .error e
    | .ok (x', none) => .ok x'
    | .ok (_, some e) => .error e
  | _ => .error (.typeMismatch "")

/-- The number of binary digits of `a`, counted in at most `fuel` halvings. -/
def bitLengthFuel : Nat → Nat → Nat
  | 0, _ => 0
  | fuel + 1, a => if a = 0 then 0 else bitLengthFuel fuel (a / 2) + 1

/-- The number of binary digits of a natural number. -/
def bitLength (a : Nat) : Nat :=
  bitLengthFuel a a

/-- The `float64` nearest to an integer (ties to the even mantissa), when the integer has
more than 53 significant bits; `shift` is the number of bits that do not fit. -/
def roundFloat64 (a : Nat) : Nat :=
  let shift := bitLength a - 53
  let q := a / 2 ^ shift
  let r := a % 2 ^ shift
  let half := 2 ^ (shift - 1)
  let q' := if half < r ∨ (r = half ∧ q % 2 = 1) then q + 1 else q
  q' * 2 ^ shift

/-- The decoder method `convertNumber` on an integer literal: the `float64` that
`strconv.ParseFloat` returns, or none when the literal is out of the range of `float64` (an
error of the decoder, and a nil value). Integers up to `2 ^ 53` in magnitude are exact. -/
def convertNumber (n : Int) : Option Int :=
  if n.natAbs ≤ 2 ^ 53 then some n
  else if bitLength (roundFloat64 n.natAbs) ≤ 1024 then
    some (Int.sign n * (roundFloat64 n.natAbs : Int))
  else none

mutual

/-- The decoder method `valueInterface`: the Go value that a document is decoded to when the
target is an `interface{}`. -/
def valueInterface : Json → Json
  | .null => .null
  | .bool b => .bool b
  | .number n =>
    match convertNumber n with
    | some f => .number f
    | none => .null
  | .string s => .string s
  | .array xs => .array (arrayInterface xs)
  | .object kvs => .object (objectInterface kvs)

/-- The decoder method `arrayInterface`: the elements of an array, decoded one by one. -/
def arrayInterface : List Json → List Json
  | [] => []
  | x :: xs => valueInterface x :: arrayInterface xs

/-- The decoder method `objectInterface`: the entries of the map that the members of an
object are stored in; of two members of the same key the later one is the entry. -/
def objectInterface : List (String × Json) → List (String × Json)
  | [] => []
  | (k, v) :: kvs =>
    if kvs.any (fun e => decide (e.1 = k)) then objectInterface kvs
    else (k, valueInterface v) :: objectInterface kvs

end

/-- The function `json.Unmarshal(data, &m)` for a `map[string]interface{}`: the map after the
call, whose error is ignored by the caller. The members of an object are decoded and stored
in document order, `null` makes the map nil, any other document leaves the map as it is. -/
def unmarshalMap (m : GoMap Json) : Json → GoMap Json
  | .null => []
  | .object kvs => kvs.foldl (fun m kv => m.set kv.1 (valueInterface kv.2)) m
  | _ => m

end json

/-- The fourteen keys that `UnmarshalJSON` deletes from the extensions. -/
def reservedKeys : List String :=
  ["$ref", "summary", "description", "connect", "delete", "get", "head", "options", "patch",
   "post", "put", "trace", "servers", "parameters"]

namespace PathItem

variable {Operation Server Parameter : Type}

/-- The method `UnmarshalJSON`: the receiver after the call and the error returned. -/
def UnmarshalJSON (C : Codec Operation Server Parameter)
    (pathItem : PathItem Operation Server Parameter) (data : Json) :
    PathItem Operation Server Parameter × Option DecodeError :=
  match json.unmarshalStruct C {} data with
  | .error err => (pathItem, some err)
  | .ok x =>
    let extensions := json.unmarshalMap x.Extensions data
    let extensions := extensions.delete "$ref"
    let extensions := extensions.delete "summary"
    let extensions := extensions.delete "description"
    let extensions := extensions.delete "connect"
    let extensions := extensions.delete "delete"
    let extensions := extensions.delete "get"
    let extensions := extensions.delete "head"
    let extensions := extensions.delete "options"
    let extensions := extensions.delete "patch"
    let extensions := extensions.delete "post"
    let extensions := extensions.delete "put"
    let extensions := extensions.delete "trace"
    let extensions := extensions.delete "servers"
    let extensions := extensions.delete "parameters"
    ({ x with Extensions := extensions }, none)

end PathItem

/-! ## Round trips -/

/-- The codecs of the collaborators round-trip: decoding the encoding of an operation, of a
server or of a parameter gives it back, and a non-nil operation is not encoded as `null`. -/
def Codec.RoundTrips {Operation Server Parameter : Type}
    (C : Codec Operation Server Parameter) : Prop :=
  (∀ op, C.marshalOperation op ≠ .null ∧
    C.unmarshalOperation (C.marshalOperation op) = .ok op) ∧
  (∀ s, C.unmarshalServer (C.marshalServer s) = .ok s) ∧
  (∀ q, C.unmarshalParameter (C.marshalParameter q) = .ok q)

namespace PathItem

variable {Operation Server Parameter : Type}

/-- Field-wise equality of two path items, the extensions being compared as maps: the same
value, or no value, at every key. -/
def Equiv (p q : PathItem Operation Server Parameter) : Prop :=
  p.Ref = q.Ref ∧ p.Summary = q.Summary ∧ p.Description = q.Description ∧
  p.Connect = q.Connect ∧ p.Delete = q.Delete ∧ p.Get = q.Get ∧ p.Head = q.Head ∧
  p.Options = q.Options ∧ p.Patch = q.Patch ∧ p.Post = q.Post ∧ p.Put = q.Put ∧
  p.Trace = q.Trace ∧ p.Servers = q.Servers ∧ p.Parameters = q.Parameters ∧
  ∀ k, p.Extensions.get k = q.Extensions.get k

/-- The path item that has the named fields of `n` whose keys are in `S`, and the default
value in every other field: the struct while the members of keys `S` have been decoded. -/
def restrict (n : PathItem Operation Server Parameter) (S : List String) :
    PathItem Operation Server Parameter where
  Extensions := []
  Ref := ""
  Summary := if "summary" ∈ S then n.Summary else ""
  Description := if "description" ∈ S then n.Description else ""
  Connect := if "connect" ∈ S then n.Connect else none
  Delete := if "delete" ∈ S then n.Delete else none
  Get := if "get" ∈ S then n.Get else none
  Head := if "head" ∈ S then n.Head else none
  Options := if "options" ∈ S then n.Options else none
  Patch := if "patch" ∈ S then n.Patch else none
  Post := if "post" ∈ S then n.Post else none
  Put := if "put" ∈ S then n.Put else none
  Trace := if "trace" ∈ S then n.Trace else none
  Servers := if "servers" ∈ S then n.Servers else []
  Parameters := if "parameters" ∈ S then n.Parameters else []

end PathItem

/-! ## Validation -/


/-- The collaborators of `Validate`. A validator returns a Go `error`, here the optional
text of the error. `operationValidate` is the method `(*Operation).Validate`, whose receiver
is a pointer. -/
structure Validators (Context ValidationOption Operation : Type) where
  WithValidationOptions : Context → List ValidationOption → Context
  operationValidate : Context → Option Operation → Option String
  validateExtensions : Context → GoMap Json → Option String

namespace PathItem

variable {Operation Server Parameter Context ValidationOption : Type}

/-- The text of `fmt.Errorf("invalid operation %s: %v", method, err)`. -/
def invalidOperation (method err : String) : String :=
  "invalid operation " ++ method ++ ": " ++ err

/-- The loop of `Validate` over the sorted `methods`, followed by the final `return`. -/
def validateLoop (V : Validators Context ValidationOption Operation) (ctx : Context)
    (operations : GoMap Operation) (extensions : GoMap Json) : List String → Option String
  | [] => V.validateExtensions ctx extensions
  | method :: methods =>
    let operation := operations.get method
    match V.operationValidate ctx operation with
    | some err => some (invalidOperation method err)
    | none => validateLoop V ctx operations extensions methods

/-- The method `Validate` once the loop `for method := range operations` has appended the
keys of the map to `methods` in the order `ranged`. -/
def validateRanged (V : Validators Context ValidationOption Operation)
    (pathItem : PathItem Operation Server Parameter) (ctx : Context)
    (opts : List ValidationOption) (ranged : List String) : Option String :=
  let ctx := V.WithValidationOptions ctx opts
  let operations := pathItem.Operations
  let methods := ranged
  let methods := sort.Strings methods
  validateLoop V ctx operations pathItem.Extensions methods

/-- The method `Validate`. The keys are gathered in the order of the list that represents the
map; `validateRanged_eq_validateSlots` shows that every other order gives the same result. -/
def Validate (V : Validators Context ValidationOption Operation)
    (pathItem : PathItem Operation Server Parameter) (ctx : Context)
    (opts : List ValidationOption) : Option String :=
  validateRanged V pathItem ctx opts pathItem.Operations.keys

/-- The nine operation slots with their method names, in increasing order of the names. -/
def slots (pathItem : PathItem Operation Server Parameter) : List (String × Option Operation) :=
  [(http.MethodConnect, pathItem.Connect), (http.MethodDelete, pathItem.Delete),
   (http.MethodGet, pathItem.Get), (http.MethodHead, pathItem.Head),
   (http.MethodOptions, pathItem.Options), (http.MethodPatch, pathItem.Patch),
   (http.MethodPost, pathItem.Post), (http.MethodPut, pathItem.Put),
   (http.MethodTrace, pathItem.Trace)]

/-- The conditional assignment `if v != nil { operations[k] = v }`. -/
def setSome (m : GoMap Operation) (k : String) (o : Option Operation) : GoMap Operation :=
  match o with
  | some v => m.set k v
  | none => m

/-- The names of the populated entries of a list of slots. -/
def populated (l : List (String × Option Operation)) : List String :=
  (l.filter (fun e => e.2.isSome)).map Prod.fst

/-- Validation of a list of slots in the order given: unpopulated slots are skipped, the
first failing operation is reported, and the extensions are validated at the end. -/
def validateSlots (V : Validators Context ValidationOption Operation) (ctx : Context)
    (extensions : GoMap Json) : List (String × Option Operation) → Option String
  | [] => V.validateExtensions ctx extensions
  | (_, none) :: rest => validateSlots V ctx extensions rest
  | (method, some op) :: rest =>
    match V.operationValidate ctx (some op) with
    | some err => some (invalidOperation method err)
    | none => validateSlots V ctx extensions rest

/-- One step of the straight-line validator: an unpopulated slot is skipped, a populated slot
whose operation fails is reported as `invalid operation M: e`, and otherwise the validation
goes on with `next`. -/
def checkSlot (V : Validators Context ValidationOption Operation) (ctx : Context)
    (method : String) (slot : Option Operation) (next : Option String) : Option String :=
  match slot with
  | none => next
  | some op =>
    match V.operationValidate ctx (some op) with
    | some e => some ("invalid operation " ++ method ++ ": " ++ e)
    | none => next

/-- The straight-line validator, written after the words of the specification and not after
the code: the nine slots are checked in the fixed order CONNECT, DELETE, GET, HEAD, OPTIONS,
PATCH, POST, PUT, TRACE, and when none fails the result is that of the extension
validator. -/
def validateStraightLine (V : Validators Context ValidationOption Operation)
    (pathItem : PathItem Operation Server Parameter) (ctx : Context)
    (opts : List ValidationOption) : Option String :=
  let ctx := V.WithValidationOptions ctx opts
  checkSlot V ctx "CONNECT" pathItem.Connect <|
  checkSlot V ctx "DELETE" pathItem.Delete <|
  checkSlot V ctx "GET" pathItem.Get <|
  checkSlot V ctx "HEAD" pathItem.Head <|
  checkSlot V ctx "OPTIONS" pathItem.Options <|
  checkSlot V ctx "PATCH" pathItem.Patch <|
  checkSlot V ctx "POST" pathItem.Post <|
  checkSlot V ctx "PUT" pathItem.Put <|
  checkSlot V ctx "TRACE" pathItem.Trace <|
  V.validateExtensions ctx pathItem.Extensions

end PathItem

/-! ## Collaborators used in the examples -/

/-- Example validators over operations that are strings: an operation passes exactly when it
is `"ok"`, the error of another operation `s` is `"bad " ++ s`; the extensions pass exactly
when the map is empty. -/
def exampleValidators : Validators Unit Unit String where
  WithValidationOptions := fun ctx _ => ctx
  operationValidate := fun _ o =>
    match o with
    | some s => if s = "ok" then none else some ("bad " ++ s)
    | none => some "nil operation"
  validateExtensions := fun _ m => if m.isEmpty then none else some "bad extensions"

/-- Example validators that differ from `exampleValidators` on every operation other than
`"d"` and on the extensions. -/
def exampleValidatorsLate : Validators Unit Unit String where
  WithValidationOptions := fun ctx _ => ctx
  operationValidate := fun _ o =>
    match o with
    | some s => if s = "d" then some "bad d" else none
    | none => none
  validateExtensions := fun _ _ => some "never reached"

/-- Example codecs: an operation is a string, encoded as an object with the one member
`operationId`; a server is an integer, encoded as a number; a parameter is a boolean. -/
def exampleCodec : Codec String Int Bool where
  marshalOperation := fun s => .object [("operationId", .string s)]
  unmarshalOperation := fun j =>
    match j with
    | .object [("operationId", .string s)] => .ok s
    | _ => .error "operation"
  marshalServer := fun n => .number n
  unmarshalServer := fun j =>
    match j with
    | .number n => .ok n
    | _ => .error "server"
  marshalParameter := fun b => .bool b
  unmarshalParameter := fun j =>
    match j with
    | .bool b => .ok b
    | _ => .error "parameter"

/-- An example path item that is a reference and also has content. -/
def exampleReference : PathItem String Int Bool :=
  { Ref := "#/r", Summary := "s", Get := some "g", Servers := [1],
    Extensions := [("x-a", .number 1)] }

/-- An example path item with an extension under the key of a named field. -/
def exampleCollision : PathItem String Int Bool :=
  { Summary := "s", Extensions := [("summary", .string "e"), ("x-a", .number 1)] }

/-- An example document: a summary, a GET operation and an extension. -/
def exampleDocument : Json :=
  .object [("summary", .string "s"), ("x-foo", .number 1),
    ("get", .object [("operationId", .string "g")])]

/-- An example document: a reference together with an extension. -/
def exampleReferenceDocument : Json :=
  .object [("$ref", .string "#/r"), ("x-foo", .number 1)]

/-- An example path item with an extension whose key is the name of a field in another
letter case. -/
def exampleCaseVariant : PathItem String Int Bool :=
  { Extensions := [("Summary", .string "hi")] }

/-- An example path item with content and an extension, and no reference. -/
def exampleContent : PathItem String Int Bool :=
  { Summary := "s", Get := some "g", Servers := [1, 2], Parameters := [true],
    Extensions := [("x-foo", .number 1)] }

/-- An example path item without a reference whose only content is an extension under the
key `GET`, which is none of the fourteen reserved keys. -/
def exampleUpperCaseKey : PathItem String Int Bool :=
  { Extensions := [("GET", .object [("operationId", .string "g")])] }

/-- An example path item whose operations all pass `exampleValidators` and whose extensions
do not. -/
def exampleValidOperations : PathItem String Int Bool :=
  { Get := some "ok", Post := some "ok", Extensions := [("x-a", .number 1)] }

/-- An example document whose member `summary` is not a string. -/
def exampleIllTypedDocument : Json :=
  .object [("summary", .number 1), ("x-foo", .number 2)]

/-! ## Theorems -/

/-! ### Lemmas about Go maps and sorting -/

namespace GoMap

variable {V W : Type}

theorem get_delete (m : GoMap V) (k k' : String) :
    (m.delete k).get k' = if k = k' then none else m.get k' := by
  induction m with
  | nil => simp [delete, get]
  | cons e m ih =>
    obtain ⟨a, v⟩ := e
    by_cases ha : a = k
    · subst ha
      have : delete ((a, v) :: m) a = delete m a := by simp [delete]
      rw [this, ih]
      by_cases h : a = k' <;> simp [get, h]
    · have : delete ((a, v) :: m) k = (a, v) :: delete m k := by simp [delete, ha]
      rw [this]
      simp only [get, ih]
      by_cases h : k = k'
      · subst h; simp [ha]
      · simp [h]

theorem get_set (m : GoMap V) (k k' : String) (v : V) :
    (m.set k v).get k' = if k = k' then some v else m.get k' := by
  by_cases h : k = k' <;> simp [set, get, get_delete, h]

theorem mem_keys_iff (m : GoMap V) (k : String) : k ∈ m.keys ↔ (m.get k).isSome = true := by
  induction m with
  | nil => simp [keys, get]
  | cons e m ih =>
    obtain ⟨a, v⟩ := e
    by_cases h : a = k
    · simp [keys, get, h]
    · have hk : keys ((a, v) :: m) = a :: keys m := rfl
      rw [hk, List.mem_cons, ih]
      simp [get, h, Ne.symm h]

theorem keys_delete (m : GoMap V) (k : String) :
    (m.delete k).keys = m.keys.filter (fun a => decide (a ≠ k)) := by
  simp [delete, keys, List.filter_map, Function.comp_def]

theorem nodup_keys_set (m : GoMap V) (k : String) (v : V) (h : m.keys.Nodup) :
    (m.set k v).keys.Nodup := by
  have hk : (m.set k v).keys = k :: (m.delete k).keys := rfl
  rw [hk, keys_delete, List.nodup_cons]
  exact ⟨by simp [List.mem_filter], h.filter _⟩

theorem get_mapValues (f : V → W) (m : GoMap V) (k : String) :
    (m.mapValues f).get k = (m.get k).map f := by
  induction m with
  | nil => rfl
  | cons e m ih =>
    obtain ⟨a, v⟩ := e
    by_cases h : a = k
    · simp [mapValues, get, h]
    · have : mapValues f ((a, v) :: m) = (a, f v) :: mapValues f m := rfl
      rw [this]
      simp only [get, h, if_false]
      exact ih

end GoMap

namespace sort

/-- Two sorted lists of strings with the same elements, each without duplicates, are equal:
`sort.Strings` does not depend on the order of its input. -/
theorem strings_eq_of_perm {xs ys : List String} (h : xs.Perm ys) (hs : ys.Sorted le) :
    Strings xs = ys :=
  List.eq_of_perm_of_sorted ((List.perm_insertionSort le xs).trans h)
    (List.sorted_insertionSort le xs) hs

end sort

/-! ### Lemmas about `Operations` and `Validate` -/

namespace PathItem

variable {Operation Server Parameter Context ValidationOption : Type}

theorem get_setSome (m : GoMap Operation) (k k' : String) (o : Option Operation) :
    (setSome m k o).get k' = if k' = k ∧ o.isSome = true then o else m.get k' := by
  cases o with
  | none => simp [setSome]
  | some v => simp [setSome, GoMap.get_set, eq_comm]

theorem nodup_keys_setSome (m : GoMap Operation) (k : String) (o : Option Operation)
    (h : m.keys.Nodup) : (setSome m k o).keys.Nodup := by
  cases o with
  | none => exact h
  | some v => exact GoMap.nodup_keys_set m k v h

theorem operations_eq (p : PathItem Operation Server Parameter) :
    p.Operations =
      setSome (setSome (setSome (setSome (setSome (setSome (setSome (setSome (setSome []
        http.MethodConnect p.Connect) http.MethodDelete p.Delete) http.MethodGet p.Get)
        http.MethodHead p.Head) http.MethodOptions p.Options) http.MethodPatch p.Patch)
        http.MethodPost p.Post) http.MethodPut p.Put) http.MethodTrace p.Trace := rfl

theorem nodup_keys_operations (p : PathItem Operation Server Parameter) :
    p.Operations.keys.Nodup := by
  rw [operations_eq]
  repeat apply nodup_keys_setSome
  exact List.nodup_nil

/-- The map of `Operations` read at any key: the slot of a recognised method, and nothing at
any other key. -/
theorem get_operations (p : PathItem Operation Server Parameter) (m : String) :
    p.Operations.get m = (GoMap.get p.slots m).join := by
  rw [operations_eq]
  simp only [get_setSome, GoMap.get, slots]
  by_cases h9 : m = http.MethodTrace
  · subst h9; cases p.Trace <;> simp +decide
  by_cases h8 : m = http.MethodPut
  · subst h8; cases p.Put <;> simp +decide
  by_cases h7 : m = http.MethodPost
  · subst h7; cases p.Post <;> simp +decide
  by_cases h6 : m = http.MethodPatch
  · subst h6; cases p.Patch <;> simp +decide
  by_cases h5 : m = http.MethodOptions
  · subst h5; cases p.Options <;> simp +decide
  by_cases h4 : m = http.MethodHead
  · subst h4; cases p.Head <;> simp +decide
  by_cases h3 : m = http.MethodGet
  · subst h3; cases p.Get <;> simp +decide
  by_cases h2 : m = http.MethodDelete
  · subst h2; cases p.Delete <;> simp +decide
  by_cases h1 : m = http.MethodConnect
  · subst h1; cases p.Connect <;> simp +decide
  simp [h1, h2, h3, h4, h5, h6, h7, h8, h9, Ne.symm h1, Ne.symm h2, Ne.symm h3, Ne.symm h4,
    Ne.symm h5, Ne.symm h6, Ne.symm h7, Ne.symm h8, Ne.symm h9]

theorem populated_sublist (l : List (String × Option Operation)) :
    (populated l).Sublist (l.map Prod.fst) :=
  (List.filter_sublist l).map Prod.fst

theorem mem_populated_iff (l : List (String × Option Operation))
    (hl : (l.map Prod.fst).Nodup) (a : String) :
    a ∈ populated l ↔ ((GoMap.get l a).join).isSome = true := by
  induction l with
  | nil => simp [populated, GoMap.get]
  | cons e l ih =>
    obtain ⟨k, o⟩ := e
    rw [List.map_cons, List.nodup_cons] at hl
    have ih' := ih hl.2
    by_cases h : k = a
    · subst h
      have hnot : k ∉ populated l := fun hk => hl.1 ((populated_sublist l).subset hk)
      cases o with
      | none =>
        have : populated ((k, none) :: l) = populated l := by simp [populated]
        simp [this, hnot, GoMap.get]
      | some v => simp [populated, GoMap.get]
    · cases o with
      | none =>
        have : populated ((k, none) :: l) = populated l := by simp [populated]
        simp [this, ih', GoMap.get, h]
      | some v =>
        have : populated ((k, some v) :: l) = k :: populated l := by simp [populated]
        simp [this, ih', GoMap.get, h, Ne.symm h]

theorem map_fst_slots (p : PathItem Operation Server Parameter) :
    p.slots.map Prod.fst = recognizedMethods := rfl

theorem sorted_recognizedMethods : recognizedMethods.Sorted sort.le := by
  decide

theorem nodup_recognizedMethods : recognizedMethods.Nodup := by
  decide

/-- The sorted key list of `Operations`, from whatever order the keys were gathered in, is
the list of the populated method names in the order of the nine slots. -/
theorem strings_ranged (p : PathItem Operation Server Parameter) (ranged : List String)
    (h : ranged.Perm p.Operations.keys) :
    sort.Strings ranged = populated p.slots := by
  have hsub := populated_sublist p.slots
  rw [map_fst_slots] at hsub
  apply sort.strings_eq_of_perm _ (sorted_recognizedMethods.sublist hsub)
  refine h.trans ?_
  rw [List.perm_ext_iff_of_nodup (nodup_keys_operations p) (nodup_recognizedMethods.sublist hsub)]
  intro a
  rw [GoMap.mem_keys_iff, get_operations,
    mem_populated_iff _ (by rw [map_fst_slots]; exact nodup_recognizedMethods)]

theorem validateLoop_populated (V : Validators Context ValidationOption Operation)
    (ctx : Context) (operations : GoMap Operation) (extensions : GoMap Json)
    (l : List (String × Option Operation))
    (hl : ∀ e ∈ l, operations.get e.1 = e.2) :
    validateLoop V ctx operations extensions (populated l) =
      validateSlots V ctx extensions l := by
  induction l with
  | nil => rfl
  | cons e l ih =>
    obtain ⟨k, o⟩ := e
    have ih' := ih (fun e he => hl e (List.mem_cons_of_mem _ he))
    have hk : operations.get k = o := hl (k, o) (List.mem_cons_self _ _)
    cases o with
    | none =>
      have : populated ((k, none) :: l) = populated l := by simp [populated]
      rw [this, ih']
      rfl
    | some v =>
      have : populated ((k, some v) :: l) = k :: populated l := by simp [populated]
      rw [this]
      simp only [validateLoop, validateSlots, hk, ih']

theorem get_slots_of_mem (p : PathItem Operation Server Parameter)
    (e : String × Option Operation) (he : e ∈ p.slots) : (GoMap.get p.slots e.1).join = e.2 := by
  simp only [slots, List.mem_cons, List.mem_singleton, List.not_mem_nil, or_false] at he
  rcases he with h | h | h | h | h | h | h | h | h <;> subst h <;> rfl

/-- The result of `Validate` for any order in which the keys of the map are gathered: the
nine slots are checked in increasing order of their method names. -/
theorem validateRanged_eq_validateSlots (V : Validators Context ValidationOption Operation)
    (p : PathItem Operation Server Parameter) (ctx : Context) (opts : List ValidationOption)
    (ranged : List String) (h : ranged.Perm p.Operations.keys) :
    validateRanged V p ctx opts ranged =
      validateSlots V (V.WithValidationOptions ctx opts) p.Extensions p.slots := by
  simp only [validateRanged, strings_ranged p ranged h]
  apply validateLoop_populated
  intro e he
  rw [get_operations, get_slots_of_mem p e he]

end PathItem

namespace GoMap

variable {V : Type}

theorem get_eq_some_iff (m : GoMap V) (hm : m.keys.Nodup) (k : String) (v : V) :
    m.get k = some v ↔ (k, v) ∈ m := by
  induction m with
  | nil => simp [get]
  | cons e m ih =>
    obtain ⟨a, w⟩ := e
    have hk : keys ((a, w) :: m) = a :: keys m := rfl
    rw [hk, List.nodup_cons] at hm
    by_cases h : a = k
    · subst h
      have hnot : ∀ v, (a, v) ∉ m := fun v hv =>
        hm.1 (List.mem_map_of_mem Prod.fst hv)
      simp [get, hnot, eq_comm]
    · simp [get, h, ih hm.2, Ne.symm h]

end GoMap

namespace PathItem

variable {Operation Server Parameter Context ValidationOption : Type}

theorem pairwise_lt_recognizedMethods : recognizedMethods.Pairwise sort.lt := by
  decide

theorem pairwise_lt_slots (p : PathItem Operation Server Parameter) :
    p.slots.Pairwise (fun a b => sort.lt a.1 b.1) := by
  have h := pairwise_lt_recognizedMethods
  rw [← map_fst_slots p, List.pairwise_map] at h
  exact h

/-- A method is a key of `Operations` with value `op` exactly when its slot holds `op`. -/
theorem get_operations_eq_some_iff (p : PathItem Operation Server Parameter) (m : String)
    (op : Operation) : p.Operations.get m = some op ↔ (m, some op) ∈ p.slots := by
  rw [get_operations, Option.join_eq_some]
  exact GoMap.get_eq_some_iff p.slots (by
    show (p.slots.map Prod.fst).Nodup
    rw [map_fst_slots]; exact nodup_recognizedMethods) m (some op)

/-- The slots before a failing one all pass: the failing one is reported. -/
theorem validateSlots_first_failure (V : Validators Context ValidationOption Operation)
    (ctx : Context) (extensions : GoMap Json) (pre post : List (String × Option Operation))
    (M : String) (op : Operation) (err : String)
    (hpre : ∀ e ∈ pre, ∀ o, e.2 = some o → V.operationValidate ctx (some o) = none)
    (hop : V.operationValidate ctx (some op) = some err) :
    validateSlots V ctx extensions (pre ++ (M, some op) :: post) =
      some (invalidOperation M err) := by
  induction pre with
  | nil => simp [validateSlots, hop]
  | cons e pre ih =>
    obtain ⟨k, o⟩ := e
    have ih' := ih (fun e he => hpre e (List.mem_cons_of_mem _ he))
    cases o with
    | none => simpa [validateSlots] using ih'
    | some v =>
      have hv := hpre (k, some v) (List.mem_cons_self _ _) v rfl
      simpa [validateSlots, hv] using ih'

/-- When every populated slot passes, the result is that of the extension validator. -/
theorem validateSlots_all_pass (V : Validators Context ValidationOption Operation)
    (ctx : Context) (extensions : GoMap Json) (l : List (String × Option Operation))
    (hl : ∀ e ∈ l, ∀ o, e.2 = some o → V.operationValidate ctx (some o) = none) :
    validateSlots V ctx extensions l = V.validateExtensions ctx extensions := by
  induction l with
  | nil => rfl
  | cons e l ih =>
    obtain ⟨k, o⟩ := e
    have ih' := ih (fun e he => hl e (List.mem_cons_of_mem _ he))
    cases o with
    | none => simpa [validateSlots] using ih'
    | some v =>
      have hv := hl (k, some v) (List.mem_cons_self _ _) v rfl
      simpa [validateSlots, hv] using ih'

/-- A list of slots with a failing operation splits at its first failing operation. -/
theorem exists_first_failure (V : Validators Context ValidationOption Operation)
    (ctx : Context) (l : List (String × Option Operation))
    (hl : ∃ e ∈ l, ∃ o, e.2 = some o ∧ V.operationValidate ctx (some o) ≠ none) :
    ∃ pre post M op err, l = pre ++ (M, some op) :: post ∧
      (∀ e ∈ pre, ∀ o, e.2 = some o → V.operationValidate ctx (some o) = none) ∧
      V.operationValidate ctx (some op) = some err := by
  induction l with
  | nil => simp at hl
  | cons e l ih =>
    obtain ⟨k, o⟩ := e
    by_cases hhead : ∃ v err, o = some v ∧ V.operationValidate ctx (some v) = some err
    · obtain ⟨v, err, rfl, hv⟩ := hhead
      exact ⟨[], l, k, v, err, rfl, by simp, hv⟩
    · have hpass : ∀ v, o = some v → V.operationValidate ctx (some v) = none := by
        intro v hv
        cases hr : V.operationValidate ctx (some v) with
        | none => rfl
        | some err => exact absurd ⟨v, err, hv, hr⟩ hhead
      have htail : ∃ e ∈ l, ∃ o, e.2 = some o ∧ V.operationValidate ctx (some o) ≠ none := by
        obtain ⟨e, he, v, hv, hne⟩ := hl
        rcases List.mem_cons.1 he with rfl | he
        · exact absurd (hpass v hv) hne
        · exact ⟨e, he, v, hv, hne⟩
      obtain ⟨pre, post, M, op, err, hsplit, hpre, hop⟩ := ih htail
      refine ⟨(k, o) :: pre, post, M, op, err, by rw [hsplit]; rfl, ?_, hop⟩
      intro e he v hv
      rcases List.mem_cons.1 he with rfl | he
      · exact hpass v hv
      · exact hpre e he v hv

end PathItem

namespace PathItem

variable {Operation Server Parameter Context ValidationOption : Type}

/-- The method `Validate` checks the nine slots in increasing order of their method names. -/
theorem validate_eq_validateSlots (V : Validators Context ValidationOption Operation)
    (p : PathItem Operation Server Parameter) (ctx : Context) (opts : List ValidationOption) :
    p.Validate V ctx opts =
      validateSlots V (V.WithValidationOptions ctx opts) p.Extensions p.slots :=
  validateRanged_eq_validateSlots V p ctx opts _ (List.Perm.refl _)

end PathItem

/-! ### Lemmas about `UnmarshalJSON` -/

namespace json

variable {Operation Server Parameter α : Type}

theorem storeString_extensions (set : String → PathItem Operation Server Parameter)
    (x : PathItem Operation Server Parameter) (saved : Option DecodeError) (field : String)
    (j : Json) (st : PathItem Operation Server Parameter × Option DecodeError)
    (hset : ∀ s, (set s).Extensions = x.Extensions)
    (h : storeString set x saved field j = .ok st) : st.1.Extensions = x.Extensions := by
  cases j <;> simp only [storeString, Except.ok.injEq] at h <;> subst h <;>
    first | rfl | exact hset _

theorem storeOperation_extensions (C : Codec Operation Server Parameter)
    (set : Option Operation → PathItem Operation Server Parameter)
    (x : PathItem Operation Server Parameter) (saved : Option DecodeError)
    (j : Json) (st : PathItem Operation Server Parameter × Option DecodeError)
    (hset : ∀ o, (set o).Extensions = x.Extensions)
    (h : storeOperation C set saved j = .ok st) : st.1.Extensions = x.Extensions := by
  cases j <;> simp only [storeOperation] at h <;>
    first
      | (cases h; exact hset _)
      | (split at h
         · cases h; exact hset _
         · cases h)

theorem storeSlice_extensions (unmarshal : Json → Except String α)
    (set : List α → PathItem Operation Server Parameter)
    (x : PathItem Operation Server Parameter) (saved : Option DecodeError) (field : String)
    (j : Json) (st : PathItem Operation Server Parameter × Option DecodeError)
    (hset : ∀ l, (set l).Extensions = x.Extensions)
    (h : storeSlice unmarshal set x saved field j = .ok st) :
    st.1.Extensions = x.Extensions := by
  cases j <;> simp only [storeSlice] at h <;>
    first
      | (cases h; first | rfl | exact hset _)
      | (split at h
         · cases h; exact hset _
         · cases h)

theorem decodeMember_extensions (C : Codec Operation Server Parameter)
    (st st' : PathItem Operation Server Parameter × Option DecodeError) (key : String)
    (value : Json) (h : decodeMember C st key value = .ok st') :
    st'.1.Extensions = st.1.Extensions := by
  unfold decodeMember at h
  split at h
  · cases h; rfl
  all_goals
    dsimp only at h
    first
      | (refine storeString_extensions _ st.1 _ _ _ _ ?_ h; intro _; rfl)
      | (refine storeOperation_extensions C _ st.1 _ _ _ ?_ h; intro _; rfl)
      | (refine storeSlice_extensions _ _ st.1 _ _ _ _ ?_ h; intro _; rfl)

theorem decodeMembers_extensions (C : Codec Operation Server Parameter)
    (kvs : List (String × Json))
    (st st' : PathItem Operation Server Parameter × Option DecodeError)
    (h : decodeMembers C st kvs = .ok st') : st'.1.Extensions = st.1.Extensions := by
  induction kvs generalizing st with
  | nil => simp only [decodeMembers, Except.ok.injEq] at h; subst h; rfl
  | cons e kvs ih =>
    obtain ⟨k, v⟩ := e
    simp only [decodeMembers] at h
    split at h
    · cases h
    · rename_i st₁ h₁
      rw [ih st₁ h, decodeMember_extensions C st st₁ k v h₁]

/-- The structural decoding does not touch the field `Extensions`. -/
theorem unmarshalStruct_extensions (C : Codec Operation Server Parameter)
    (x x' : PathItem Operation Server Parameter) (data : Json)
    (h : unmarshalStruct C x data = .ok x') : x'.Extensions = x.Extensions := by
  cases data <;> simp only [unmarshalStruct] at h <;> try cases h
  · rfl
  · split at h
    · cases h
    · rename_i x₁ h₁
      cases h
      exact decodeMembers_extensions C _ _ _ h₁
    · cases h

end json

namespace PathItem

variable {Operation Server Parameter : Type}

/-- The extensions after the fourteen deletions, read at any key. -/
theorem get_delete_reserved (m : GoMap Json) (k : String) :
    ((((((((((((((m.delete "$ref").delete "summary").delete "description").delete
      "connect").delete "delete").delete "get").delete "head").delete "options").delete
      "patch").delete "post").delete "put").delete "trace").delete "servers").delete
      "parameters").get k = if k ∈ reservedKeys then none else m.get k := by
  simp only [GoMap.get_delete, reservedKeys, List.mem_cons, List.mem_singleton,
    List.not_mem_nil, or_false]
  by_cases h : k = "$ref" ∨ k = "summary" ∨ k = "description" ∨ k = "connect" ∨ k = "delete" ∨
      k = "get" ∨ k = "head" ∨ k = "options" ∨ k = "patch" ∨ k = "post" ∨ k = "put" ∨
      k = "trace" ∨ k = "servers" ∨ k = "parameters"
  · rw [if_pos h]
    rcases h with h | h | h | h | h | h | h | h | h | h | h | h | h | h <;> subst h <;>
      simp +decide
  · rw [if_neg h]
    simp only [not_or] at h
    obtain ⟨h1, h2, h3, h4, h5, h6, h7, h8, h9, h10, h11, h12, h13, h14⟩ := h
    simp [Ne.symm h1, Ne.symm h2, Ne.symm h3, Ne.symm h4, Ne.symm h5, Ne.symm h6, Ne.symm h7,
      Ne.symm h8, Ne.symm h9, Ne.symm h10, Ne.symm h11, Ne.symm h12, Ne.symm h13, Ne.symm h14]

/-- A successful `UnmarshalJSON`: the fields are those of the structural decoding, and the
extensions are the generic decoding with the reserved keys deleted. -/
theorem unmarshalJSON_ok (C : Codec Operation Server Parameter)
    (r p : PathItem Operation Server Parameter) (data : Json)
    (h : UnmarshalJSON C r data = (p, none)) :
    ∃ x, json.unmarshalStruct C {} data = .ok x ∧
      p.Ref = x.Ref ∧ p.Summary = x.Summary ∧ p.Description = x.Description ∧
      p.Connect = x.Connect ∧ p.Delete = x.Delete ∧ p.Get = x.Get ∧ p.Head = x.Head ∧
      p.Options = x.Options ∧ p.Patch = x.Patch ∧ p.Post = x.Post ∧ p.Put = x.Put ∧
      p.Trace = x.Trace ∧ p.Servers = x.Servers ∧ p.Parameters = x.Parameters ∧
      ∀ k, p.Extensions.get k =
        if k ∈ reservedKeys then none else (json.unmarshalMap [] data).get k := by
  unfold UnmarshalJSON at h
  split at h
  · cases h
  · rename_i x hx
    have hext : x.Extensions = [] := json.unmarshalStruct_extensions C _ _ _ hx
    cases h
    refine ⟨x, hx, rfl, rfl, rfl, rfl, rfl, rfl, rfl, rfl, rfl, rfl, rfl, rfl, rfl, rfl, ?_⟩
    intro k
    rw [hext]
    exact get_delete_reserved _ k

end PathItem

/-! ### Lemmas about `MarshalJSON` -/

namespace PathItem

variable {Operation Server Parameter : Type}

theorem get_putString (m : GoMap (Value Operation Server Parameter)) (k k' x : String) :
    (putString m k x).get k' =
      if k' = k ∧ x ≠ "" then some (.json (.string x)) else m.get k' := by
  by_cases hx : x = "" <;> simp [putString, hx, GoMap.get_set, eq_comm]

theorem get_putOperation (m : GoMap (Value Operation Server Parameter)) (k k' : String)
    (x : Option Operation) :
    (putOperation m k x).get k' =
      if k' = k ∧ x.isSome = true then x.map .operation else m.get k' := by
  cases x with
  | none => simp [putOperation]
  | some v => simp [putOperation, GoMap.get_set, eq_comm]

theorem get_putSlice {α : Type} (wrap : List α → Value Operation Server Parameter)
    (m : GoMap (Value Operation Server Parameter)) (k k' : String) (x : List α) :
    (putSlice wrap m k x).get k' =
      if k' = k ∧ x.length ≠ 0 then some (wrap x) else m.get k' := by
  by_cases hx : x.length = 0 <;> simp [putSlice, hx, GoMap.get_set, eq_comm]

theorem marshalMap_eq (n : PathItem Operation Server Parameter) :
    n.marshalMap =
      putSlice .parameters (putSlice .servers (putOperation (putOperation (putOperation
        (putOperation (putOperation (putOperation (putOperation (putOperation (putOperation
        (putString (putString (n.Extensions.mapValues .json) "summary" n.Summary)
        "description" n.Description) "connect" n.Connect) "delete" n.Delete) "get" n.Get)
        "head" n.Head) "options" n.Options) "patch" n.Patch) "post" n.Post) "put" n.Put)
        "trace" n.Trace) "servers" n.Servers) "parameters" n.Parameters := rfl

/-- The map that `MarshalJSON` builds, read at any key, is the overlay of the
specification. -/
theorem get_marshalMap (n : PathItem Operation Server Parameter) (k : String) :
    n.marshalMap.get k = overlay n k := by
  rw [marshalMap_eq]
  simp only [get_putSlice, get_putOperation, get_putString, GoMap.get_mapValues, overlay,
    namedField]
  by_cases h1 : k = "summary"
  · subst h1; by_cases h : n.Summary = "" <;> simp +decide [h]
  by_cases h2 : k = "description"
  · subst h2; by_cases h : n.Description = "" <;> simp +decide [h]
  by_cases h3 : k = "connect"
  · subst h3; cases n.Connect <;> simp +decide
  by_cases h4 : k = "delete"
  · subst h4; cases n.Delete <;> simp +decide
  by_cases h5 : k = "get"
  · subst h5; cases n.Get <;> simp +decide
  by_cases h6 : k = "head"
  · subst h6; cases n.Head <;> simp +decide
  by_cases h7 : k = "options"
  · subst h7; cases n.Options <;> simp +decide
  by_cases h8 : k = "patch"
  · subst h8; cases n.Patch <;> simp +decide
  by_cases h9 : k = "post"
  · subst h9; cases n.Post <;> simp +decide
  by_cases h10 : k = "put"
  · subst h10; cases n.Put <;> simp +decide
  by_cases h11 : k = "trace"
  · subst h11; cases n.Trace <;> simp +decide
  by_cases h12 : k = "servers"
  · subst h12; by_cases h : n.Servers.length = 0 <;> simp +decide [h]
  by_cases h13 : k = "parameters"
  · subst h13; by_cases h : n.Parameters.length = 0 <;> simp +decide [h]
  simp [h1, h2, h3, h4, h5, h6, h7, h8, h9, h10, h11, h12, h13]

end PathItem

namespace json

theorem get_orderedInsert (a : String × Json) (l : List (String × Json)) (k : String) :
    GoMap.get (l.orderedInsert (fun a b => sort.le a.1 b.1) a) k = GoMap.get (a :: l) k := by
  induction l with
  | nil => rfl
  | cons b l ih =>
    obtain ⟨ka, va⟩ := a
    obtain ⟨kb, vb⟩ := b
    by_cases hab : sort.le ka kb
    · simp [List.orderedInsert, hab]
    · have hne : ka ≠ kb := fun h => hab (h ▸ le_refl ka.toList)
      simp only [List.orderedInsert, hab, if_false, GoMap.get, ih]
      by_cases h1 : kb = k
      · subst h1; simp [hne]
      · simp [h1]

/-- Sorting the members by key does not change the value found at a key. -/
theorem get_sortMembers (l : List (String × Json)) (k : String) :
    GoMap.get (sortMembers l) k = GoMap.get l k := by
  induction l with
  | nil => rfl
  | cons a l ih =>
    have : sortMembers (a :: l) =
        (sortMembers l).orderedInsert (fun a b => sort.le a.1 b.1) a := rfl
    rw [this, get_orderedInsert]
    obtain ⟨ka, va⟩ := a
    simp only [GoMap.get, ih]

/-- The object that `json.Marshal` writes, read at a key: the encoding of the value of the
map at that key. -/
theorem get_marshal {Operation Server Parameter : Type} (C : Codec Operation Server Parameter)
    (m : GoMap (Value Operation Server Parameter)) (k : String) :
    ∃ out, Marshal C m = .object out ∧ GoMap.get out k = (m.get k).map (encodeValue C) :=
  ⟨_, rfl, by rw [get_sortMembers, GoMap.get_mapValues]⟩

end json

namespace PathItem

variable {Operation Server Parameter : Type}

theorem namedField_of_not_reserved (n : PathItem Operation Server Parameter) (k : String)
    (hk : k ∉ reservedKeys) : namedField n k = none := by
  simp only [reservedKeys, List.mem_cons, List.mem_singleton, List.not_mem_nil, or_false,
    not_or] at hk
  obtain ⟨-, h1, h2, h3, h4, h5, h6, h7, h8, h9, h10, h11, h12, h13⟩ := hk
  simp [namedField, h1, h2, h3, h4, h5, h6, h7, h8, h9, h10, h11, h12, h13]

end PathItem

/-! ### Lemmas about decoding an encoded path item -/

namespace json

variable {Operation Server Parameter α : Type}

theorem findField_key (f : Field) : findField f.key = some f := by
  cases f <;> decide

theorem storeOperation_marshal (C : Codec Operation Server Parameter) (hC : C.RoundTrips)
    (set : Option Operation → PathItem Operation Server Parameter)
    (saved : Option DecodeError) (op : Operation) :
    storeOperation C set saved (C.marshalOperation op) = .ok (set (some op), saved) := by
  obtain ⟨hnull, hdec⟩ := hC.1 op
  generalize C.marshalOperation op = j at hnull hdec
  cases j <;> first
    | exact absurd rfl hnull
    | simp only [storeOperation, hdec]

theorem decodeElements_map (marshal : α → Json) (unmarshal : Json → Except String α)
    (h : ∀ a, unmarshal (marshal a) = .ok a) (xs : List α) :
    decodeElements unmarshal (xs.map marshal) = .ok xs := by
  induction xs with
  | nil => rfl
  | cons a xs ih => simp only [List.map_cons, decodeElements, h, ih]

end json

namespace PathItem

open json

variable {Operation Server Parameter : Type}

/-- Decoding the member of a named field of `n` that is not default stores the field. -/
theorem decodeMember_named (C : Codec Operation Server Parameter) (hC : C.RoundTrips)
    (n : PathItem Operation Server Parameter) (S : List String) (k : String)
    (v : Value Operation Server Parameter) (hv : namedField n k = some v) :
    decodeMember C (restrict n S, none) k (encodeValue C v) =
      .ok (restrict n (k :: S), none) := by
  by_cases h_summary : k = "summary"
  · subst h_summary
    by_cases hx : n.Summary = ""
    · simp +decide [namedField, hx] at hv
    · simp +decide [namedField, hx] at hv
      subst hv
      simp +decide [decodeMember, findField, Field.all, Field.key, foldName, encodeValue,
        storeString, restrict]
  by_cases h_description : k = "description"
  · subst h_description
    by_cases hx : n.Description = ""
    · simp +decide [namedField, hx] at hv
    · simp +decide [namedField, hx] at hv
      subst hv
      simp +decide [decodeMember, findField, Field.all, Field.key, foldName, encodeValue,
        storeString, restrict]
  by_cases h_connect : k = "connect"
  · subst h_connect
    cases hx : n.Connect with
    | none => simp +decide [namedField, hx] at hv
    | some op =>
      simp +decide [namedField, hx] at hv
      subst hv
      have hf : findField "connect" = some .Connect := by decide
      simp only [decodeMember, hf, encodeValue, storeOperation_marshal C hC]
      simp +decide [restrict, hx]
  by_cases h_delete : k = "delete"
  · subst h_delete
    cases hx : n.Delete with
    | none => simp +decide [namedField, hx] at hv
    | some op =>
      simp +decide [namedField, hx] at hv
      subst hv
      have hf : findField "delete" = some .Delete := by decide
      simp only [decodeMember, hf, encodeValue, storeOperation_marshal C hC]
      simp +decide [restrict, hx]
  by_cases h_get : k = "get"
  · subst h_get
    cases hx : n.Get with
    | none => simp +decide [namedField, hx] at hv
    | some op =>
      simp +decide [namedField, hx] at hv
      subst hv
      have hf : findField "get" = some .Get := by decide
      simp only [decodeMember, hf, encodeValue, storeOperation_marshal C hC]
      simp +decide [restrict, hx]
  by_cases h_head : k = "head"
  · subst h_head
    cases hx : n.Head with
    | none => simp +decide [namedField, hx] at hv
    | some op =>
      simp +decide [namedField, hx] at hv
      subst hv
      have hf : findField "head" = some .Head := by decide
      simp only [decodeMember, hf, encodeValue, storeOperation_marshal C hC]
      simp +decide [restrict, hx]
  by_cases h_options : k = "options"
  · subst h_options
    cases hx : n.Options with
    | none => simp +decide [namedField, hx] at hv
    | some op =>
      simp +decide [namedField, hx] at hv
      subst hv
      have hf : findField "options" = some .Options := by decide
      simp only [decodeMember, hf, encodeValue, storeOperation_marshal C hC]
      simp +decide [restrict, hx]
  by_cases h_patch : k = "patch"
  · subst h_patch
    cases hx : n.Patch with
    | none => simp +decide [namedField, hx] at hv
    | some op =>
      simp +decide [namedField, hx] at hv
      subst hv
      have hf : findField "patch" = some .Patch := by decide
      simp only [decodeMember, hf, encodeValue, storeOperation_marshal C hC]
      simp +decide [restrict, hx]
  by_cases h_post : k = "post"
  · subst h_post
    cases hx : n.Post with
    | none => simp +decide [namedField, hx] at hv
    | some op =>
      simp +decide [namedField, hx] at hv
      subst hv
      have hf : findField "post" = some .Post := by decide
      simp only [decodeMember, hf, encodeValue, storeOperation_marshal C hC]
      simp +decide [restrict, hx]
  by_cases h_put : k = "put"
  · subst h_put
    cases hx : n.Put with
    | none => simp +decide [namedField, hx] at hv
    | some op =>
      simp +decide [namedField, hx] at hv
      subst hv
      have hf : findField "put" = some .Put := by decide
      simp only [decodeMember, hf, encodeValue, storeOperation_marshal C hC]
      simp +decide [restrict, hx]
  by_cases h_trace : k = "trace"
  · subst h_trace
    cases hx : n.Trace with
    | none => simp +decide [namedField, hx] at hv
    | some op =>
      simp +decide [namedField, hx] at hv
      subst hv
      have hf : findField "trace" = some .Trace := by decide
      simp only [decodeMember, hf, encodeValue, storeOperation_marshal C hC]
      simp +decide [restrict, hx]
  by_cases h_servers : k = "servers"
  · subst h_servers
    by_cases hx : n.Servers.length = 0
    · simp +decide [namedField, hx] at hv
    · simp +decide [namedField, hx] at hv
      subst hv
      have hf : findField "servers" = some .Servers := by decide
      simp only [decodeMember, hf, encodeValue, storeSlice,
        decodeElements_map _ _ hC.2.1]
      simp +decide [restrict]
  by_cases h_parameters : k = "parameters"
  · subst h_parameters
    by_cases hx : n.Parameters.length = 0
    · simp +decide [namedField, hx] at hv
    · simp +decide [namedField, hx] at hv
      subst hv
      have hf : findField "parameters" = some .Parameters := by decide
      simp only [decodeMember, hf, encodeValue, storeSlice,
        decodeElements_map _ _ hC.2.2]
      simp +decide [restrict]
  simp [namedField, h_summary, h_description, h_connect, h_delete, h_get, h_head, h_options,
    h_patch, h_post, h_put, h_trace, h_servers, h_parameters] at hv

end PathItem

namespace GoMap

variable {V W : Type}

theorem keys_mapValues (f : V → W) (m : GoMap V) : (m.mapValues f).keys = m.keys := by
  simp [mapValues, keys, Function.comp_def]

theorem get_eq_none_of_not_mem_keys (m : GoMap V) (k : String) (h : k ∉ m.keys) :
    m.get k = none := by
  rw [mem_keys_iff] at h
  cases hg : m.get k with
  | none => rfl
  | some v => simp [hg] at h

/-- Storing the images of the members of a list that has no key twice, one after the
other. -/
theorem get_foldl_set (f : W → V) (kvs : List (String × W)) (hkvs : keys kvs |>.Nodup)
    (m : GoMap V) (k : String) :
    (kvs.foldl (fun m kv => m.set kv.1 (f kv.2)) m).get k =
      match get kvs k with
      | some v => some (f v)
      | none => m.get k := by
  induction kvs generalizing m with
  | nil => rfl
  | cons e kvs ih =>
    obtain ⟨a, v⟩ := e
    have hk : keys ((a, v) :: kvs) = a :: keys kvs := rfl
    rw [hk, List.nodup_cons] at hkvs
    rw [List.foldl_cons, ih hkvs.2]
    by_cases h : a = k
    · subst h
      simp [get, get_eq_none_of_not_mem_keys kvs a hkvs.1, get_set]
    · simp [get, h, get_set, get_delete]

end GoMap

namespace PathItem

open json

variable {Operation Server Parameter : Type}

/-- Decoding a member whose key names no field leaves the struct as it is. -/
theorem decodeMember_extension (C : Codec Operation Server Parameter)
    (n : PathItem Operation Server Parameter) (S : List String) (k : String) (j : Json)
    (hk : findField k = none) :
    decodeMember C (restrict n S, none) k j = .ok (restrict n (k :: S), none) := by
  have h_summary : k ≠ "summary" := by
    rintro rfl
    revert hk
    decide
  have h_description : k ≠ "description" := by
    rintro rfl
    revert hk
    decide
  have h_connect : k ≠ "connect" := by
    rintro rfl
    revert hk
    decide
  have h_delete : k ≠ "delete" := by
    rintro rfl
    revert hk
    decide
  have h_get : k ≠ "get" := by
    rintro rfl
    revert hk
    decide
  have h_head : k ≠ "head" := by
    rintro rfl
    revert hk
    decide
  have h_options : k ≠ "options" := by
    rintro rfl
    revert hk
    decide
  have h_patch : k ≠ "patch" := by
    rintro rfl
    revert hk
    decide
  have h_post : k ≠ "post" := by
    rintro rfl
    revert hk
    decide
  have h_put : k ≠ "put" := by
    rintro rfl
    revert hk
    decide
  have h_trace : k ≠ "trace" := by
    rintro rfl
    revert hk
    decide
  have h_servers : k ≠ "servers" := by
    rintro rfl
    revert hk
    decide
  have h_parameters : k ≠ "parameters" := by
    rintro rfl
    revert hk
    decide
  simp only [decodeMember, hk]
  simp [restrict, Ne.symm h_summary, Ne.symm h_description, Ne.symm h_connect,
    Ne.symm h_delete, Ne.symm h_get, Ne.symm h_head, Ne.symm h_options, Ne.symm h_patch,
    Ne.symm h_post, Ne.symm h_put, Ne.symm h_trace, Ne.symm h_servers, Ne.symm h_parameters]

/-- Decoding members that are entries of the overlay of `n`, in any order. -/
theorem decodeMembers_restrict (C : Codec Operation Server Parameter) (hC : C.RoundTrips)
    (n : PathItem Operation Server Parameter)
    (hext : ∀ k ∈ n.Extensions.keys, findField k = none)
    (l : List (String × Json))
    (hl : ∀ e ∈ l, ∃ v, overlay n e.1 = some v ∧ e.2 = encodeValue C v) (S : List String) :
    decodeMembers C (restrict n S, none) l =
      .ok (restrict n ((GoMap.keys l).reverse ++ S), none) := by
  induction l generalizing S with
  | nil => rfl
  | cons e l ih =>
    obtain ⟨k, j⟩ := e
    obtain ⟨v, hv, hj⟩ := hl (k, j) (List.mem_cons_self _ _)
    have hstep : decodeMember C (restrict n S, none) k j =
        .ok (restrict n (k :: S), none) := by
      simp only at hv hj
      cases hn : namedField n k with
      | some w =>
        simp only [overlay, hn, Option.some.injEq] at hv
        subst hv
        rw [hj]
        exact decodeMember_named C hC n S k w hn
      | none =>
        apply decodeMember_extension
        apply hext
        rw [GoMap.mem_keys_iff]
        simp only [overlay, hn] at hv
        cases hg : n.Extensions.get k with
        | none => simp [hg] at hv
        | some w => rfl
    have hkeys : GoMap.keys ((k, j) :: l) = k :: GoMap.keys l := rfl
    simp only [decodeMembers, hstep, hkeys, List.reverse_cons, List.append_assoc,
      List.singleton_append]
    exact ih (fun e he => hl e (List.mem_cons_of_mem _ he)) (k :: S)

/-- When the keys `T` cover the named fields of `n` that are not default, the struct decoded
from the members of keys `T` has all the named fields of `n`. -/
theorem restrict_eq (n : PathItem Operation Server Parameter) (T : List String)
    (h : ∀ k, namedField n k ≠ none → k ∈ T) :
    restrict n T = { n with Extensions := [], Ref := "" } := by
  have h1 : "summary" ∉ T → n.Summary = "" := fun hT => by
    by_contra hx; exact hT (h _ (by simp +decide [namedField, hx]))
  have h2 : "description" ∉ T → n.Description = "" := fun hT => by
    by_contra hx; exact hT (h _ (by simp +decide [namedField, hx]))
  have h3 : "connect" ∉ T → n.Connect = none := fun hT => by
    by_contra hx; exact hT (h _ (by simp +decide [namedField, hx]))
  have h4 : "delete" ∉ T → n.Delete = none := fun hT => by
    by_contra hx; exact hT (h _ (by simp +decide [namedField, hx]))
  have h5 : "get" ∉ T → n.Get = none := fun hT => by
    by_contra hx; exact hT (h _ (by simp +decide [namedField, hx]))
  have h6 : "head" ∉ T → n.Head = none := fun hT => by
    by_contra hx; exact hT (h _ (by simp +decide [namedField, hx]))
  have h7 : "options" ∉ T → n.Options = none := fun hT => by
    by_contra hx; exact hT (h _ (by simp +decide [namedField, hx]))
  have h8 : "patch" ∉ T → n.Patch = none := fun hT => by
    by_contra hx; exact hT (h _ (by simp +decide [namedField, hx]))
  have h9 : "post" ∉ T → n.Post = none := fun hT => by
    by_contra hx; exact hT (h _ (by simp +decide [namedField, hx]))
  have h10 : "put" ∉ T → n.Put = none := fun hT => by
    by_contra hx; exact hT (h _ (by simp +decide [namedField, hx]))
  have h11 : "trace" ∉ T → n.Trace = none := fun hT => by
    by_contra hx; exact hT (h _ (by simp +decide [namedField, hx]))
  have h12 : "servers" ∉ T → n.Servers = [] := fun hT => by
    by_contra hx; exact hT (h _ (by simp +decide [namedField, hx]))
  have h13 : "parameters" ∉ T → n.Parameters = [] := fun hT => by
    by_contra hx; exact hT (h _ (by simp +decide [namedField, hx]))
  obtain ⟨ext, ref, su, de, c1, c2, c3, c4, c5, c6, c7, c8, c9, sv, pa⟩ := n
  simp only [restrict, mk.injEq, true_and]
  simp only at h1 h2 h3 h4 h5 h6 h7 h8 h9 h10 h11 h12 h13
  refine ⟨?_, ?_, ?_, ?_, ?_, ?_, ?_, ?_, ?_, ?_, ?_, ?_, ?_⟩ <;> split <;>
    first | rfl | (symm; rename_i hT; first
      | exact h1 hT | exact h2 hT | exact h3 hT | exact h4 hT | exact h5 hT | exact h6 hT
      | exact h7 hT | exact h8 hT | exact h9 hT | exact h10 hT | exact h11 hT | exact h12 hT
      | exact h13 hT)

end PathItem

namespace PathItem

open json

variable {Operation Server Parameter : Type}

theorem nodup_keys_putString (m : GoMap (Value Operation Server Parameter)) (k x : String)
    (h : m.keys.Nodup) : (putString m k x).keys.Nodup := by
  unfold putString
  split
  · exact GoMap.nodup_keys_set m k _ h
  · exact h

theorem nodup_keys_putOperation (m : GoMap (Value Operation Server Parameter)) (k : String)
    (x : Option Operation) (h : m.keys.Nodup) : (putOperation m k x).keys.Nodup := by
  cases x with
  | none => exact h
  | some v => exact GoMap.nodup_keys_set m k _ h

theorem nodup_keys_putSlice {α : Type} (wrap : List α → Value Operation Server Parameter)
    (m : GoMap (Value Operation Server Parameter)) (k : String) (x : List α)
    (h : m.keys.Nodup) : (putSlice wrap m k x).keys.Nodup := by
  unfold putSlice
  split
  · exact GoMap.nodup_keys_set m k _ h
  · exact h

theorem nodup_keys_marshalMap (n : PathItem Operation Server Parameter)
    (h : n.Extensions.keys.Nodup) : n.marshalMap.keys.Nodup := by
  rw [marshalMap_eq]
  apply nodup_keys_putSlice
  apply nodup_keys_putSlice
  repeat apply nodup_keys_putOperation
  apply nodup_keys_putString
  apply nodup_keys_putString
  rw [GoMap.keys_mapValues]
  exact h

/-- The encoding of a path item whose `Ref` is not empty. -/
theorem marshalJSON_of_ref (C : Codec Operation Server Parameter)
    (n : PathItem Operation Server Parameter) (h : n.Ref ≠ "") :
    n.MarshalJSON C = .object [("$ref", .string n.Ref)] := by
  simp [MarshalJSON, h, openapi3.Ref, json.Marshal, GoMap.mapValues, json.sortMembers,
    json.encodeValue]

/-- Decoding the encoding of a path item whose `Ref` is not empty gives the path item that
has this `Ref` and nothing else. -/
theorem decode_encode_of_ref (C : Codec Operation Server Parameter)
    (r n : PathItem Operation Server Parameter) (h : n.Ref ≠ "") :
    UnmarshalJSON C r (n.MarshalJSON C) = ({ Ref := n.Ref }, none) := by
  rw [marshalJSON_of_ref C n h]
  have hf : findField "$ref" = some .Ref := by decide
  simp +decide [UnmarshalJSON, unmarshalStruct, decodeMembers, decodeMember, hf, storeString,
    unmarshalMap, GoMap.set, GoMap.delete]

/-- The members of the encoding of a path item whose `Ref` is empty. -/
theorem members_marshalMap (C : Codec Operation Server Parameter)
    (n : PathItem Operation Server Parameter) (hnd : n.Extensions.keys.Nodup) :
    (∀ e ∈ sortMembers (n.marshalMap.mapValues (encodeValue C)),
      ∃ v, overlay n e.1 = some v ∧ e.2 = encodeValue C v) ∧
    (GoMap.keys (sortMembers (n.marshalMap.mapValues (encodeValue C)))).Nodup ∧
    (∀ k, namedField n k ≠ none →
      k ∈ GoMap.keys (sortMembers (n.marshalMap.mapValues (encodeValue C)))) := by
  have hperm : (sortMembers (n.marshalMap.mapValues (encodeValue C))).Perm
      (n.marshalMap.mapValues (encodeValue C)) := List.perm_insertionSort _ _
  have hE := nodup_keys_marshalMap n hnd
  refine ⟨?_, ?_, ?_⟩
  · intro e he
    have he' := hperm.mem_iff.1 he
    simp only [GoMap.mapValues, List.mem_map] at he'
    obtain ⟨⟨k, v⟩, hmem, rfl⟩ := he'
    exact ⟨v, by rw [← get_marshalMap]; exact (GoMap.get_eq_some_iff _ hE k v).2 hmem, rfl⟩
  · have := (hperm.map Prod.fst).nodup_iff
    rw [GoMap.keys, this]
    have hk := GoMap.keys_mapValues (encodeValue C) n.marshalMap
    rw [GoMap.keys] at hk
    rw [hk]
    exact hE
  · intro k hk
    rw [GoMap.mem_keys_iff, get_sortMembers, GoMap.get_mapValues, get_marshalMap, overlay]
    cases hn : namedField n k with
    | none => exact absurd hn hk
    | some v => rfl

/-- The structural decoding of the encoding of a path item whose `Ref` is empty and whose
extension keys name no field: all the named fields come back. -/
theorem unmarshalStruct_marshal (C : Codec Operation Server Parameter) (hC : C.RoundTrips)
    (n : PathItem Operation Server Parameter) (hnd : n.Extensions.keys.Nodup)
    (hext : ∀ k ∈ n.Extensions.keys, findField k = none) :
    unmarshalStruct C {} (Marshal C n.marshalMap) =
      .ok { n with Extensions := [], Ref := "" } := by
  obtain ⟨hmem, -, hcover⟩ := members_marshalMap C n hnd
  have h0 : ({} : PathItem Operation Server Parameter) = restrict n [] := by
    simp [restrict]
  simp only [Marshal, unmarshalStruct]
  rw [h0, decodeMembers_restrict C hC n hext _ hmem []]
  simp only
  rw [restrict_eq]
  intro k hk
  simpa using hcover k hk

/-- Decoding the encoding of a path item whose `Ref` is empty, whose extension keys name no
field and whose extension values are values that the generic decoding returns as they are:
the path item comes back, field by field. -/
theorem decode_encode_of_content (C : Codec Operation Server Parameter)
    (hC : C.RoundTrips) (r n : PathItem Operation Server Parameter) (href : n.Ref = "")
    (hnd : n.Extensions.keys.Nodup)
    (hext : ∀ k ∈ n.Extensions.keys, findField k = none)
    (hval : ∀ e ∈ n.Extensions, valueInterface e.2 = e.2) :
    ∃ p, UnmarshalJSON C r (n.MarshalJSON C) = (p, none) ∧ Equiv p n := by
  have hM : n.MarshalJSON C = Marshal C n.marshalMap := by simp [MarshalJSON, href]
  obtain ⟨-, hkeys, -⟩ := members_marshalMap C n hnd
  rw [hM]
  simp only [UnmarshalJSON, unmarshalStruct_marshal C hC n hnd hext]
  refine ⟨_, rfl, href.symm, rfl, rfl, rfl, rfl, rfl, rfl, rfl, rfl, rfl, rfl, rfl, rfl, rfl, ?_⟩
  intro k
  rw [get_delete_reserved]
  by_cases hk : k ∈ reservedKeys
  · rw [if_pos hk]
    symm
    apply GoMap.get_eq_none_of_not_mem_keys
    intro hmem
    have hnone := hext k hmem
    simp only [reservedKeys, List.mem_cons, List.mem_singleton, List.not_mem_nil,
      or_false] at hk
    rcases hk with h | h | h | h | h | h | h | h | h | h | h | h | h | h <;> subst h <;>
      exact absurd hnone (by decide)
  · rw [if_neg hk]
    simp only [Marshal, unmarshalMap]
    rw [GoMap.get_foldl_set valueInterface _ hkeys, get_sortMembers, GoMap.get_mapValues,
      get_marshalMap, overlay, namedField_of_not_reserved n k hk]
    cases hg : n.Extensions.get k with
    | none => rfl
    | some v =>
      have hmem := (GoMap.get_eq_some_iff _ hnd k v).1 hg
      simp only [Option.map_some', encodeValue]
      rw [hval (k, v) hmem]

theorem exampleCodec_roundTrips : exampleCodec.RoundTrips := by
  unfold Codec.RoundTrips
  refine ⟨fun op => ⟨?_, rfl⟩, fun _ => rfl, fun _ => rfl⟩
  intro h
  cases h

end PathItem

/-! ### Lemmas about the straight-line validator and the accessors -/

namespace PathItem

variable {Operation Server Parameter Context ValidationOption : Type}

theorem validateSlots_cons (V : Validators Context ValidationOption Operation) (ctx : Context)
    (extensions : GoMap Json) (method : String) (slot : Option Operation)
    (rest : List (String × Option Operation)) :
    validateSlots V ctx extensions ((method, slot) :: rest) =
      checkSlot V ctx method slot (validateSlots V ctx extensions rest) := by
  cases slot <;> rfl

/-- The list-directed validation of the nine slots is the straight-line validator. -/
theorem validateSlots_slots (V : Validators Context ValidationOption Operation)
    (p : PathItem Operation Server Parameter) (ctx : Context) (opts : List ValidationOption) :
    validateSlots V (V.WithValidationOptions ctx opts) p.Extensions p.slots =
      validateStraightLine V p ctx opts := by
  simp only [slots, validateSlots_cons, validateStraightLine]
  rfl

/-- The operations fail or pass on the keys of `Operations` as they do on the slots. -/
theorem all_pass_iff (V : Validators Context ValidationOption Operation)
    (p : PathItem Operation Server Parameter) (ctx : Context) :
    (∀ m op, p.Operations.get m = some op → V.operationValidate ctx (some op) = none) ↔
      ∀ e ∈ p.slots, ∀ o, e.2 = some o → V.operationValidate ctx (some o) = none := by
  constructor
  · intro h e he o ho
    apply h e.1 o
    rw [get_operations_eq_some_iff, ← ho]
    exact he
  · intro h m op hm
    rw [get_operations_eq_some_iff] at hm
    exact h _ hm op rfl

/-- For a recognised method `MustGetOperation` returns the slot of that name. -/
theorem mustGetOperation_of_mem (p : PathItem Operation Server Parameter) (m : String)
    (hm : m ∈ recognizedMethods) :
    p.MustGetOperation m = .ok (GoMap.get p.slots m).join := by
  simp only [recognizedMethods, List.mem_cons, List.mem_singleton, List.not_mem_nil,
    or_false] at hm
  rcases hm with h | h | h | h | h | h | h | h | h <;> subst h <;> rfl

/-- A recognised method whose slot holds `op`, as `MustGetOperation` reads it, is an entry of
the list of slots. -/
theorem mustGetOperation_eq_some_iff (p : PathItem Operation Server Parameter) (m : String)
    (op : Operation) :
    (m ∈ recognizedMethods ∧ p.MustGetOperation m = .ok (some op)) ↔ (m, some op) ∈ p.slots := by
  have hnd : GoMap.keys p.slots |>.Nodup := by
    show (p.slots.map Prod.fst).Nodup
    rw [map_fst_slots]; exact nodup_recognizedMethods
  constructor
  · rintro ⟨hm, hop⟩
    rw [mustGetOperation_of_mem p m hm] at hop
    have hj : (GoMap.get p.slots m).join = some op := Except.ok.inj hop
    rw [Option.join_eq_some] at hj
    exact (GoMap.get_eq_some_iff p.slots hnd m (some op)).1 hj
  · intro hmem
    have hm : m ∈ recognizedMethods := by
      rw [← map_fst_slots p]
      exact List.mem_map_of_mem Prod.fst hmem
    refine ⟨hm, ?_⟩
    rw [mustGetOperation_of_mem p m hm, get_slots_of_mem p (m, some op) hmem]

/-- The operations pass on the slots that `MustGetOperation` reads as they do on the list of
slots. -/
theorem all_slots_pass_iff (V : Validators Context ValidationOption Operation)
    (p : PathItem Operation Server Parameter) (ctx : Context) :
    (∀ m ∈ recognizedMethods, ∀ op, p.MustGetOperation m = .ok (some op) →
        V.operationValidate ctx (some op) = none) ↔
      ∀ e ∈ p.slots, ∀ o, e.2 = some o → V.operationValidate ctx (some o) = none := by
  constructor
  · intro h e he o ho
    obtain ⟨k, slot⟩ := e
    simp only at ho
    subst ho
    obtain ⟨hm, hop⟩ := (mustGetOperation_eq_some_iff p k o).2 he
    exact h k hm o hop
  · intro h m hm op hop
    exact h _ ((mustGetOperation_eq_some_iff p m op).1 ⟨hm, hop⟩) op rfl

/-- For any other method `MustGetOperation` panics, and no slot has that name. -/
theorem mustGetOperation_of_not_mem (p : PathItem Operation Server Parameter) (m : String)
    (hm : m ∉ recognizedMethods) :
    p.MustGetOperation m = .error ("unsupported HTTP method " ++ strconv.Quote m) ∧
      GoMap.get p.slots m = none := by
  simp only [recognizedMethods, List.mem_cons, List.mem_singleton, List.not_mem_nil,
    or_false, not_or] at hm
  obtain ⟨h1, h2, h3, h4, h5, h6, h7, h8, h9⟩ := hm
  constructor
  · simp [MustGetOperation, h1, h2, h3, h4, h5, h6, h7, h8, h9]
  · simp [slots, GoMap.get, Ne.symm h1, Ne.symm h2, Ne.symm h3, Ne.symm h4, Ne.symm h5,
      Ne.symm h6, Ne.symm h7, Ne.symm h8, Ne.symm h9]

end PathItem

namespace json

/-- An integer of magnitude at most `2 ^ 53` is a `float64`: the generic decoding returns it
as it is. -/
theorem valueInterface_number (n : Int) (h : n.natAbs ≤ 2 ^ 53) :
    valueInterface (.number n) = .number n := by
  simp only [valueInterface, convertNumber, h, if_true]

/-- An integer with more than 53 significant bits is decoded to the nearest `float64`. -/
theorem valueInterface_number_rounds :
    valueInterface (.number 9007199254740993) = .number 9007199254740992 := rfl

theorem key_mem_reservedKeys (f : Field) : f.key ∈ reservedKeys := by
  cases f <;> decide

/-- A key that matches none of the fourteen reserved keys, also ignoring case, selects no
field of the struct. -/
theorem findField_eq_none_of_foldName (k : String)
    (h : ∀ r ∈ reservedKeys, foldName k ≠ foldName r) : findField k = none := by
  have hexact : Field.all.find? (fun f => decide (f.key = k)) = none := by
    rw [List.find?_eq_none]
    intro f _ hf
    simp only [decide_eq_true_eq] at hf
    exact h f.key (key_mem_reservedKeys f) (by rw [hf])
  have hfold : Field.all.find? (fun f => decide (foldName f.key = foldName k)) = none := by
    rw [List.find?_eq_none]
    intro f _ hf
    simp only [decide_eq_true_eq] at hf
    exact h f.key (key_mem_reservedKeys f) hf.symm
  simp only [findField, hexact, hfold]

end json

/-! ### The claims -/

namespace PathItem

variable {Operation Server Parameter Context ValidationOption : Type}

/-- C1: for each of the nine recognised methods, `SetOperation(m, op)` does not panic and
`MustGetOperation(m)` on the updated path item returns `op` (nil or not) without panicking. -/
theorem mustGetOperation_setOperation (p : PathItem Operation Server Parameter)
    (op : Option Operation) (m : String) (hm : m ∈ recognizedMethods) :
    ∃ p', p.SetOperation m op = .ok p' ∧ p'.MustGetOperation m = .ok op := by
  simp only [recognizedMethods, List.mem_cons, List.mem_singleton, List.not_mem_nil,
    or_false] at hm
  rcases hm with h | h | h | h | h | h | h | h | h <;> subst h <;>
    exact ⟨_, rfl, rfl⟩

/-- Witness of C1 at `TRACE`, on an empty path item, with a non-nil operation. -/
theorem mustGetOperation_setOperation_witness :
    "TRACE" ∈ recognizedMethods ∧
    ∃ p', ({} : PathItem Nat Nat Nat).SetOperation "TRACE" (some 7) = .ok p' ∧
      p'.MustGetOperation "TRACE" = .ok (some 7) :=
  ⟨by decide, mustGetOperation_setOperation {} (some 7) "TRACE" (by decide)⟩

/-- C2: for every method string outside DELETE, GET, HEAD, OPTIONS, PATCH, POST, PUT,
`GetOperation` returns a nil operation and an error whose code is 10000
(`NoSuchHTTPMethod`), whatever the slots of the path item hold. -/
theorem getOperation_unsupported (p : PathItem Operation Server Parameter) (m : String)
    (hm : m ∉ getOperationMethods) :
    (p.GetOperation m).1 = none ∧
    ∃ e, (p.GetOperation m).2 = some e ∧ e.Code = 10000 ∧
      e.Code = errors.NoSuchHTTPMethod := by
  simp only [getOperationMethods, List.mem_cons, List.mem_singleton, List.not_mem_nil,
    or_false, not_or] at hm
  obtain ⟨h1, h2, h3, h4, h5, h6, h7⟩ := hm
  have hs : p.getOperationSlot m = none := by
    simp [getOperationSlot, h1, h2, h3, h4, h5, h6, h7]
  simp [GetOperation, hs, errors.Errorf, errors.NoSuchHTTPMethod]

/-- Witness of C2 at `CONNECT` on a path item whose CONNECT slot is populated. -/
theorem getOperation_unsupported_witness :
    "CONNECT" ∉ getOperationMethods ∧
    (({ Connect := some 1 } : PathItem Nat Nat Nat).GetOperation "CONNECT").1 = none ∧
    ∃ e, (({ Connect := some 1 } : PathItem Nat Nat Nat).GetOperation "CONNECT").2 = some e ∧
      e.Code = 10000 ∧ e.Code = errors.NoSuchHTTPMethod :=
  ⟨by decide, getOperation_unsupported { Connect := some 1 } "CONNECT" (by decide)⟩

/-- C3: for each of DELETE, GET, HEAD, OPTIONS, PATCH, POST, PUT, `GetOperation` returns the
operation of a populated slot with a nil error, and for an unpopulated slot a nil operation
and an error whose code is 10001 (`NoSuchOperationIsDefinedInPath`); the slot is the one
`MustGetOperation` reads. -/
theorem getOperation_supported (p : PathItem Operation Server Parameter) (m : String)
    (hm : m ∈ getOperationMethods) :
    ∃ slot, p.MustGetOperation m = .ok slot ∧
      (∀ op, slot = some op → p.GetOperation m = (some op, none)) ∧
      (slot = none → (p.GetOperation m).1 = none ∧
        ∃ e, (p.GetOperation m).2 = some e ∧ e.Code = 10001 ∧
          e.Code = errors.NoSuchOperationIsDefinedInPath) := by
  simp only [getOperationMethods, List.mem_cons, List.mem_singleton, List.not_mem_nil,
    or_false] at hm
  rcases hm with h | h | h | h | h | h | h <;> subst h <;>
    refine ⟨_, rfl, ?_, ?_⟩ <;> intro h <;>
    simp_all +decide [GetOperation, getOperationSlot, errors.Errorf,
      errors.NoSuchOperationIsDefinedInPath]

/-- Witness of C3 at `GET` on a path item whose GET slot is populated. -/
theorem getOperation_supported_witness :
    "GET" ∈ getOperationMethods ∧
    ∃ slot, ({ Get := some 5 } : PathItem Nat Nat Nat).MustGetOperation "GET" = .ok slot ∧
      (∀ op, slot = some op →
        ({ Get := some 5 } : PathItem Nat Nat Nat).GetOperation "GET" = (some op, none)) ∧
      (slot = none → (({ Get := some 5 } : PathItem Nat Nat Nat).GetOperation "GET").1 = none ∧
        ∃ e, (({ Get := some 5 } : PathItem Nat Nat Nat).GetOperation "GET").2 = some e ∧
          e.Code = 10001 ∧ e.Code = errors.NoSuchOperationIsDefinedInPath) :=
  ⟨by decide, getOperation_supported { Get := some 5 } "GET" (by decide)⟩

/-- C4: for a path item whose `Ref` is not empty, the object that `MarshalJSON` encodes has
exactly one member, of key `$ref` and value the `Ref`, whatever the other fields hold. -/
theorem marshalJSON_ref (C : Codec Operation Server Parameter)
    (n : PathItem Operation Server Parameter) (h : n.Ref ≠ "") :
    n.MarshalJSON C = .object [("$ref", .string n.Ref)] :=
  marshalJSON_of_ref C n h

/-- Witness of C4 on a reference that also has a summary, an operation, a server and an
extension. -/
theorem marshalJSON_ref_witness :
    exampleReference.Ref ≠ "" ∧
    exampleReference.MarshalJSON exampleCodec = .object [("$ref", .string "#/r")] :=
  ⟨by decide, marshalJSON_ref exampleCodec exampleReference (by decide)⟩

/-- C5: for a path item whose `Ref` is empty, `MarshalJSON` hands to the encoder the map that
at every key holds the named field of that lowercase key when the field is not default, and
otherwise the extension of that key, if any. -/
theorem marshalJSON_overlay (C : Codec Operation Server Parameter)
    (n : PathItem Operation Server Parameter) (h : n.Ref = "") :
    n.MarshalJSON C = json.Marshal C n.marshalMap ∧
    (∀ k, n.marshalMap.get k = overlay n k) ∧
    (∀ k v, namedField n k = some v → n.marshalMap.get k = some v) ∧
    (∀ k, namedField n k = none → n.marshalMap.get k = (n.Extensions.get k).map .json) := by
  refine ⟨by simp [MarshalJSON, h], get_marshalMap n, ?_, ?_⟩
  · intro k v hk
    rw [get_marshalMap, overlay, hk]
  · intro k hk
    rw [get_marshalMap, overlay, hk]

/-- Witness of C5 on a path item whose extensions hold the key `summary`: the summary of the
path item is the value emitted there, and the other extension is emitted as it is. -/
theorem marshalJSON_overlay_witness :
    exampleCollision.Ref = "" ∧
    exampleCollision.MarshalJSON exampleCodec = json.Marshal exampleCodec
      exampleCollision.marshalMap ∧
    exampleCollision.marshalMap.get "summary" = some (.json (.string "s")) ∧
    exampleCollision.marshalMap.get "x-a" = some (.json (.number 1)) :=
  ⟨rfl, (marshalJSON_overlay exampleCodec exampleCollision rfl).1,
   (marshalJSON_overlay exampleCodec exampleCollision rfl).2.2.1 "summary" _ rfl,
   (marshalJSON_overlay exampleCodec exampleCollision rfl).2.2.2 "x-a" rfl⟩

/-- C6: after a successful `UnmarshalJSON`, the extensions hold none of the fourteen reserved
keys, and at every other key they hold what the generic decoding of the document holds. -/
theorem unmarshalJSON_extensions (C : Codec Operation Server Parameter)
    (r p : PathItem Operation Server Parameter) (data : Json)
    (h : UnmarshalJSON C r data = (p, none)) :
    (∀ k ∈ reservedKeys, k ∉ p.Extensions.keys) ∧
    (∀ k, k ∉ reservedKeys → p.Extensions.get k = (json.unmarshalMap [] data).get k) := by
  obtain ⟨x, -, -, -, -, -, -, -, -, -, -, -, -, -, -, -, hget⟩ := unmarshalJSON_ok C r p data h
  constructor
  · intro k hk hmem
    rw [GoMap.mem_keys_iff, hget, if_pos hk] at hmem
    cases hmem
  · intro k hk
    rw [hget, if_neg hk]

/-- Witness of C6 on a document with a summary, a GET operation and the extension `x-foo`. -/
theorem unmarshalJSON_extensions_witness :
    UnmarshalJSON exampleCodec {} exampleDocument =
      ({ Summary := "s", Get := some "g", Extensions := [("x-foo", .number 1)] }, none) ∧
    (∀ k ∈ reservedKeys,
      k ∉ ({ Summary := "s", Get := some "g", Extensions := [("x-foo", .number 1)] } :
        PathItem String Int Bool).Extensions.keys) ∧
    (∀ k, k ∉ reservedKeys →
      ({ Summary := "s", Get := some "g", Extensions := [("x-foo", .number 1)] } :
        PathItem String Int Bool).Extensions.get k =
      (json.unmarshalMap [] exampleDocument).get k) :=
  ⟨rfl, unmarshalJSON_extensions exampleCodec {} _ exampleDocument rfl⟩

/-- Counterexample to C7: decoding the encoding does not give the path item back when the
path item is a reference that also has content (the content is dropped), when an extension
has the key of a named field (the extension is overwritten and then deleted), and when an
extension key is the name of a field in another letter case (the extension is also decoded
into the field). -/
theorem roundtrip_fails_examples :
    ((UnmarshalJSON exampleCodec {} (exampleReference.MarshalJSON exampleCodec)).2 = none ∧
      ¬ Equiv (UnmarshalJSON exampleCodec {} (exampleReference.MarshalJSON exampleCodec)).1
        exampleReference) ∧
    ((UnmarshalJSON exampleCodec {} (exampleCollision.MarshalJSON exampleCodec)).2 = none ∧
      ¬ Equiv (UnmarshalJSON exampleCodec {} (exampleCollision.MarshalJSON exampleCodec)).1
        exampleCollision) ∧
    ((UnmarshalJSON exampleCodec {} (exampleCaseVariant.MarshalJSON exampleCodec)).2 = none ∧
      ¬ Equiv (UnmarshalJSON exampleCodec {} (exampleCaseVariant.MarshalJSON exampleCodec)).1
        exampleCaseVariant) := by
  refine ⟨⟨rfl, fun h => ?_⟩, ⟨rfl, fun h => ?_⟩, ⟨rfl, fun h => ?_⟩⟩
  · have hs : (UnmarshalJSON exampleCodec {}
        (exampleReference.MarshalJSON exampleCodec)).1.Summary = "" := rfl
    have := h.2.1
    rw [hs] at this
    exact absurd this (by decide)
  · have he : (UnmarshalJSON exampleCodec {}
        (exampleCollision.MarshalJSON exampleCodec)).1.Extensions.get "summary" = none := rfl
    have := h.2.2.2.2.2.2.2.2.2.2.2.2.2.2 "summary"
    rw [he] at this
    cases this
  · have hs : (UnmarshalJSON exampleCodec {}
        (exampleCaseVariant.MarshalJSON exampleCodec)).1.Summary = "hi" := rfl
    have := h.2.1
    rw [hs] at this
    exact absurd this (by decide)

/-- C7, amended: with collaborator codecs that round-trip, and the strings of the path item
being valid UTF-8 (as every string of the model is): when the `Ref` of `n` is not empty,
decoding the encoding of `n` gives the path item that has this `Ref` and no other content;
when the `Ref` of `n` is empty, no extension key names a field (exactly or ignoring case), and
every extension value is a value that the generic decoding returns as it is, decoding the
encoding of `n` succeeds and gives a path item equal to `n` field by field, the extensions
being compared as maps. Nothing is said of the other path items. -/
theorem roundtrip_amended (C : Codec Operation Server Parameter) (hC : C.RoundTrips)
    (r n : PathItem Operation Server Parameter) :
    (n.Ref ≠ "" → UnmarshalJSON C r (n.MarshalJSON C) = ({ Ref := n.Ref }, none)) ∧
    (n.Ref = "" → n.Extensions.keys.Nodup →
      (∀ k ∈ n.Extensions.keys, json.findField k = none) →
      (∀ e ∈ n.Extensions, json.valueInterface e.2 = e.2) →
      ∃ p, UnmarshalJSON C r (n.MarshalJSON C) = (p, none) ∧ Equiv p n) :=
  ⟨decode_encode_of_ref C r n, decode_encode_of_content C hC r n⟩

/-- Witness of C7 as amended: a reference with content, and a path item with a summary, an
operation, servers, a parameter and an extension. -/
theorem roundtrip_amended_witness :
    exampleCodec.RoundTrips ∧
    UnmarshalJSON exampleCodec {} (exampleReference.MarshalJSON exampleCodec) =
      ({ Ref := "#/r" }, none) ∧
    ∃ p, UnmarshalJSON exampleCodec {} (exampleContent.MarshalJSON exampleCodec) = (p, none) ∧
      Equiv p exampleContent :=
  ⟨exampleCodec_roundTrips,
   (roundtrip_amended exampleCodec exampleCodec_roundTrips {} exampleReference).1 (by decide),
   (roundtrip_amended exampleCodec exampleCodec_roundTrips {} exampleContent).2 rfl
     (by decide) (by decide)
     (by
       intro e he
       simp only [exampleContent, List.mem_singleton] at he
       subst he
       rfl)⟩

/-- Counterexample to C8: the document with the members `$ref` and `x-foo` decodes
successfully, `x-foo` is not a reserved key and has the value 1 in the document, and the
encoding of the decoded path item is the object with the member `$ref` only, which has no
member `x-foo`. -/
theorem extension_lost_under_ref :
    (UnmarshalJSON exampleCodec {} exampleReferenceDocument).2 = none ∧
    "x-foo" ∉ reservedKeys ∧
    (json.unmarshalMap [] exampleReferenceDocument).get "x-foo" = some (.number 1) ∧
    (UnmarshalJSON exampleCodec {} exampleReferenceDocument).1.MarshalJSON exampleCodec =
      .object [("$ref", .string "#/r")] ∧
    ¬ ∃ out, (UnmarshalJSON exampleCodec {} exampleReferenceDocument).1.MarshalJSON
        exampleCodec = .object out ∧ GoMap.get out "x-foo" = some (.number 1) := by
  refine ⟨rfl, by decide, rfl, rfl, ?_⟩
  rintro ⟨out, h₁, h₂⟩
  have h₃ : (UnmarshalJSON exampleCodec {} exampleReferenceDocument).1.MarshalJSON
      exampleCodec = .object [("$ref", .string "#/r")] := rfl
  rw [h₃] at h₁
  cases h₁
  simp +decide [GoMap.get] at h₂

/-- C8, amended: when a document decodes successfully to a path item whose `Ref` is empty,
every key that is not reserved and that the generic decoding of the document holds with
value `v` is a member of the encoding of the path item, with the same value `v`. -/
theorem extension_preserved (C : Codec Operation Server Parameter)
    (r p : PathItem Operation Server Parameter) (data : Json) (k : String) (v : Json)
    (hdec : UnmarshalJSON C r data = (p, none)) (href : p.Ref = "")
    (hk : k ∉ reservedKeys) (hv : (json.unmarshalMap [] data).get k = some v) :
    ∃ out, p.MarshalJSON C = .object out ∧ GoMap.get out k = some v := by
  obtain ⟨out, hout, hget⟩ := json.get_marshal C p.marshalMap k
  refine ⟨out, by simp [MarshalJSON, href, hout], ?_⟩
  obtain ⟨x, -, -, -, -, -, -, -, -, -, -, -, -, -, -, -, hext⟩ := unmarshalJSON_ok C r p data hdec
  rw [hget, get_marshalMap, overlay, namedField_of_not_reserved p k hk, hext, if_neg hk, hv]
  rfl

/-- Witness of C8 as amended, on the document with a summary, a GET operation and the
extension `x-foo` of value 1. -/
theorem extension_preserved_witness :
    UnmarshalJSON exampleCodec {} exampleDocument =
      ({ Summary := "s", Get := some "g", Extensions := [("x-foo", .number 1)] }, none) ∧
    "x-foo" ∉ reservedKeys ∧
    (json.unmarshalMap [] exampleDocument).get "x-foo" = some (.number 1) ∧
    ∃ out, ({ Summary := "s", Get := some "g", Extensions := [("x-foo", .number 1)] } :
        PathItem String Int Bool).MarshalJSON exampleCodec = .object out ∧
      GoMap.get out "x-foo" = some (.number 1) :=
  ⟨rfl, by decide, rfl,
   extension_preserved exampleCodec {} _ exampleDocument "x-foo" (.number 1) rfl rfl
     (by decide) rfl⟩

/-- C9: when some populated operation fails validation, `Validate` returns the error
`invalid operation M: e`, where `M` is the least method name (in the order of `sort.Strings`)
among the keys of `Operations` whose operation fails, and `e` is the error of that
operation; the result is the same for every order in which the `range` loop gathers the
keys. -/
theorem validate_reports_least_failure (V : Validators Context ValidationOption Operation)
    (p : PathItem Operation Server Parameter) (ctx : Context) (opts : List ValidationOption)
    (hfail : ∃ m op, p.Operations.get m = some op ∧
      V.operationValidate (V.WithValidationOptions ctx opts) (some op) ≠ none) :
    ∃ M op e, p.Operations.get M = some op ∧
      V.operationValidate (V.WithValidationOptions ctx opts) (some op) = some e ∧
      (∀ m' op', p.Operations.get m' = some op' →
        V.operationValidate (V.WithValidationOptions ctx opts) (some op') ≠ none →
        sort.le M m') ∧
      p.Validate V ctx opts = some ("invalid operation " ++ M ++ ": " ++ e) ∧
      ∀ ranged : List String, ranged.Perm p.Operations.keys →
        validateRanged V p ctx opts ranged =
          some ("invalid operation " ++ M ++ ": " ++ e) := by
  obtain ⟨m, op, hm, hne⟩ := hfail
  rw [get_operations_eq_some_iff] at hm
  obtain ⟨pre, post, M, op₀, err, hsplit, hpre, hop⟩ :=
    exists_first_failure V (V.WithValidationOptions ctx opts) p.slots ⟨_, hm, op, rfl, hne⟩
  have hmem : (M, some op₀) ∈ p.slots := by rw [hsplit]; simp
  refine ⟨M, op₀, err, (get_operations_eq_some_iff p M op₀).2 hmem, hop, ?_, ?_, ?_⟩
  · intro m' op' hm' hne'
    rw [get_operations_eq_some_iff, hsplit] at hm'
    have hpw := pairwise_lt_slots p
    rw [hsplit, List.pairwise_append] at hpw
    rcases List.mem_append.1 hm' with h | h
    · exact absurd (hpre _ h op' rfl) hne'
    · rcases List.mem_cons.1 h with h | h
      · have : m' = M := congrArg Prod.fst h
        subst this
        exact le_refl m'.toList
      · exact le_of_lt ((List.pairwise_cons.1 hpw.2.1).1 _ h)
  · rw [validate_eq_validateSlots, hsplit]
    exact validateSlots_first_failure V _ _ pre post M op₀ err hpre hop
  · intro ranged hranged
    rw [validateRanged_eq_validateSlots V p ctx opts ranged hranged, hsplit]
    exact validateSlots_first_failure V _ _ pre post M op₀ err hpre hop

/-- Witness of C9: with the GET and POST operations both invalid, the GET failure is the one
reported. -/
theorem validate_reports_least_failure_witness :
    (∃ m op, ({ Get := some "g", Post := some "p" } : PathItem String Nat Nat).Operations.get m
        = some op ∧
      exampleValidators.operationValidate
        (exampleValidators.WithValidationOptions () []) (some op) ≠ none) ∧
    (∃ M op e, ({ Get := some "g", Post := some "p" } : PathItem String Nat Nat).Operations.get M
        = some op ∧
      exampleValidators.operationValidate
        (exampleValidators.WithValidationOptions () []) (some op) = some e ∧
      (∀ m' op', ({ Get := some "g", Post := some "p" } : PathItem String Nat Nat).Operations.get
          m' = some op' →
        exampleValidators.operationValidate
          (exampleValidators.WithValidationOptions () []) (some op') ≠ none →
        sort.le M m') ∧
      ({ Get := some "g", Post := some "p" } : PathItem String Nat Nat).Validate
        exampleValidators () [] = some ("invalid operation " ++ M ++ ": " ++ e) ∧
      ∀ ranged : List String,
        ranged.Perm ({ Get := some "g", Post := some "p" } :
          PathItem String Nat Nat).Operations.keys →
        validateRanged exampleValidators
          ({ Get := some "g", Post := some "p" } : PathItem String Nat Nat) () [] ranged =
          some ("invalid operation " ++ M ++ ": " ++ e)) ∧
    ({ Get := some "g", Post := some "p" } : PathItem String Nat Nat).Validate
      exampleValidators () [] = some "invalid operation GET: bad g" :=
  ⟨⟨"POST", "p", by decide, by decide⟩,
   validate_reports_least_failure exampleValidators _ () [] ⟨"POST", "p", by decide, by decide⟩,
   by decide⟩

/-- C10: `Validate` is fail-fast. When the operation at method `M` fails and no populated
method before `M` fails, the result does not change when the operation validator is replaced
by any other that agrees with it on the operations at the methods up to `M`, and the
extension validator by any other: what the validators would return for the operations after
`M` and for the extensions has no influence on the result, which is the failure of `M`. -/
theorem validate_fail_fast (V : Validators Context ValidationOption Operation)
    (p : PathItem Operation Server Parameter) (ctx : Context) (opts : List ValidationOption)
    (M : String) (op : Operation)
    (operationValidate' : Context → Option Operation → Option String)
    (validateExtensions' : Context → GoMap Json → Option String)
    (hM : p.Operations.get M = some op)
    (hfail : V.operationValidate (V.WithValidationOptions ctx opts) (some op) ≠ none)
    (hbefore : ∀ m' op', p.Operations.get m' = some op' → sort.lt m' M →
      V.operationValidate (V.WithValidationOptions ctx opts) (some op') = none)
    (hagree : ∀ m' op', p.Operations.get m' = some op' → sort.le m' M →
      operationValidate' (V.WithValidationOptions ctx opts) (some op') =
        V.operationValidate (V.WithValidationOptions ctx opts) (some op')) :
    p.Validate { V with operationValidate := operationValidate',
                        validateExtensions := validateExtensions' } ctx opts =
      p.Validate V ctx opts ∧
    ∃ e, V.operationValidate (V.WithValidationOptions ctx opts) (some op) = some e ∧
      p.Validate V ctx opts = some ("invalid operation " ++ M ++ ": " ++ e) := by
  rw [get_operations_eq_some_iff] at hM
  obtain ⟨pre, post, hsplit⟩ := List.append_of_mem hM
  have hpw := pairwise_lt_slots p
  rw [hsplit, List.pairwise_append] at hpw
  have hmemPre : ∀ e ∈ pre, ∀ o, e.2 = some o → p.Operations.get e.1 = some o := by
    intro e he o ho
    rw [get_operations_eq_some_iff, hsplit, ← ho]
    exact List.mem_append_left _ he
  have hpre : ∀ e ∈ pre, ∀ o, e.2 = some o →
      V.operationValidate (V.WithValidationOptions ctx opts) (some o) = none := by
    intro e he o ho
    exact hbefore e.1 o (hmemPre e he o ho) (hpw.2.2 e he _ (List.mem_cons_self _ _))
  have hpre' : ∀ e ∈ pre, ∀ o, e.2 = some o →
      operationValidate' (V.WithValidationOptions ctx opts) (some o) = none := by
    intro e he o ho
    rw [hagree e.1 o (hmemPre e he o ho)
      (le_of_lt (hpw.2.2 e he _ (List.mem_cons_self _ _)))]
    exact hpre e he o ho
  obtain ⟨err, herr⟩ := Option.ne_none_iff_exists'.1 hfail
  have herr' : operationValidate' (V.WithValidationOptions ctx opts) (some op) = some err := by
    rw [hagree M op ((get_operations_eq_some_iff p M op).2 hM) (le_refl M.toList)]
    exact herr
  have hV : p.Validate V ctx opts = some (invalidOperation M err) := by
    rw [validate_eq_validateSlots, hsplit]
    exact validateSlots_first_failure V _ _ pre post M op err hpre herr
  refine ⟨?_, err, herr, hV⟩
  rw [hV, validate_eq_validateSlots, hsplit]
  exact validateSlots_first_failure _ _ _ pre post M op err hpre' herr'

/-- Witness of C10: with DELETE and GET both invalid, the DELETE failure is reported, also
under validators that differ on the GET operation and on the extensions. -/
theorem validate_fail_fast_witness :
    ({ Delete := some "d", Get := some "g" } : PathItem String Nat Nat).Validate
        { exampleValidators with
          operationValidate := exampleValidatorsLate.operationValidate,
          validateExtensions := exampleValidatorsLate.validateExtensions } () [] =
      ({ Delete := some "d", Get := some "g" } : PathItem String Nat Nat).Validate
        exampleValidators () [] ∧
    ({ Delete := some "d", Get := some "g" } : PathItem String Nat Nat).Validate
        exampleValidators () [] = some "invalid operation DELETE: bad d" :=
  ⟨(validate_fail_fast exampleValidators _ () [] "DELETE" "d"
      exampleValidatorsLate.operationValidate exampleValidatorsLate.validateExtensions
      (by decide) (by decide)
      (by
        intro m' op' h hlt
        rw [get_operations_eq_some_iff] at h
        simp only [slots, List.mem_cons, List.mem_singleton, List.not_mem_nil, or_false,
          Prod.mk.injEq] at h
        rcases h with h | h | h | h | h | h | h | h | h <;> obtain ⟨rfl, h⟩ := h <;>
          first
            | (simp at h; done)
            | (exfalso; revert hlt; decide))
      (by
        intro m' op' h hle
        rw [get_operations_eq_some_iff] at h
        simp only [slots, List.mem_cons, List.mem_singleton, List.not_mem_nil, or_false,
          Prod.mk.injEq] at h
        rcases h with h | h | h | h | h | h | h | h | h <;> obtain ⟨rfl, h⟩ := h <;>
          first
            | (simp at h; done)
            | (exfalso; revert hle; decide)
            | (cases h; rfl))).1,
   by decide⟩

/-- C11: when every populated operation passes validation (in particular when there is no
operation), `Validate` returns exactly what `validateExtensions` returns for the extensions
of the path item, failure or success, for every order in which the keys are gathered. -/
theorem validate_of_all_pass (V : Validators Context ValidationOption Operation)
    (p : PathItem Operation Server Parameter) (ctx : Context) (opts : List ValidationOption)
    (h : ∀ m op, p.Operations.get m = some op →
      V.operationValidate (V.WithValidationOptions ctx opts) (some op) = none) :
    p.Validate V ctx opts =
      V.validateExtensions (V.WithValidationOptions ctx opts) p.Extensions ∧
    ∀ ranged : List String, ranged.Perm p.Operations.keys →
      validateRanged V p ctx opts ranged =
        V.validateExtensions (V.WithValidationOptions ctx opts) p.Extensions := by
  have hall := (all_pass_iff V p (V.WithValidationOptions ctx opts)).1 h
  constructor
  · rw [validate_eq_validateSlots]
    exact validateSlots_all_pass V _ _ _ hall
  · intro ranged hranged
    rw [validateRanged_eq_validateSlots V p ctx opts ranged hranged]
    exact validateSlots_all_pass V _ _ _ hall

/-- Witness of C11: the GET and POST operations pass and the extension validator fails; its
failure is what `Validate` returns. -/
theorem validate_of_all_pass_witness :
    (∀ m op, exampleValidOperations.Operations.get m = some op →
      exampleValidators.operationValidate (exampleValidators.WithValidationOptions () [])
        (some op) = none) ∧
    exampleValidOperations.Validate exampleValidators () [] =
      exampleValidators.validateExtensions (exampleValidators.WithValidationOptions () [])
        exampleValidOperations.Extensions ∧
    exampleValidOperations.Validate exampleValidators () [] = some "bad extensions" :=
  have h : ∀ m op, exampleValidOperations.Operations.get m = some op →
      exampleValidators.operationValidate (exampleValidators.WithValidationOptions () [])
        (some op) = none := by
    intro m op hm
    rw [get_operations_eq_some_iff] at hm
    simp only [slots, List.mem_cons, List.mem_singleton, List.not_mem_nil, or_false,
      Prod.mk.injEq] at hm
    rcases hm with hm | hm | hm | hm | hm | hm | hm | hm | hm <;> obtain ⟨-, hm⟩ := hm <;>
      first
        | (simp [exampleValidOperations] at hm; done)
        | (cases hm; rfl)
  ⟨h, (validate_of_all_pass exampleValidators exampleValidOperations () [] h).1, by decide⟩

/-- C12: the map of `Operations` has the key `m` exactly when `m` is one of the nine
upper-case method names and the slot for `m` is populated; the value at a key is the
operation of that slot, as `MustGetOperation` returns it (a value of the map is an operation,
never nil), and no key occurs twice. -/
theorem operations_get_iff (p : PathItem Operation Server Parameter) (m : String) :
    (m ∈ p.Operations.keys ↔
      m ∈ recognizedMethods ∧ ∃ op, p.MustGetOperation m = .ok (some op)) ∧
    (∀ op, p.Operations.get m = some op ↔
      m ∈ recognizedMethods ∧ p.MustGetOperation m = .ok (some op)) ∧
    p.Operations.keys.Nodup := by
  have hval : ∀ op, p.Operations.get m = some op ↔
      m ∈ recognizedMethods ∧ p.MustGetOperation m = .ok (some op) := by
    intro op
    rw [get_operations]
    by_cases hm : m ∈ recognizedMethods
    · rw [mustGetOperation_of_mem p m hm]
      simp [hm]
    · rw [(mustGetOperation_of_not_mem p m hm).2]
      simp [hm]
  refine ⟨?_, hval, nodup_keys_operations p⟩
  rw [GoMap.mem_keys_iff, Option.isSome_iff_exists]
  constructor
  · rintro ⟨op, hop⟩
    exact ⟨((hval op).1 hop).1, op, ((hval op).1 hop).2⟩
  · rintro ⟨hm, op, hop⟩
    exact ⟨op, (hval op).2 ⟨hm, hop⟩⟩

/-- C13: `SetOperation` and `MustGetOperation` panic exactly when the method is not one of
the nine recognised names, which are matched with their case (`get` panics); for a
recognised method that is no key of `Operations`, `MustGetOperation` returns nil without
panicking. -/
theorem panic_iff_not_recognized (p : PathItem Operation Server Parameter) (m : String)
    (op : Option Operation) :
    ((∃ msg, p.SetOperation m op = .error msg) ↔ m ∉ recognizedMethods) ∧
    ((∃ msg, p.MustGetOperation m = .error msg) ↔ m ∉ recognizedMethods) ∧
    (m ∈ recognizedMethods → m ∉ p.Operations.keys → p.MustGetOperation m = .ok none) ∧
    (∃ msg, p.SetOperation "get" op = .error msg) ∧
    (∃ msg, p.MustGetOperation "get" = .error msg) := by
  refine ⟨?_, ?_, ?_, ⟨_, rfl⟩, ⟨_, rfl⟩⟩
  · by_cases hm : m ∈ recognizedMethods
    · simp only [hm, not_true_eq_false, iff_false, not_exists]
      intro msg
      simp only [recognizedMethods, List.mem_cons, List.mem_singleton, List.not_mem_nil,
        or_false] at hm
      rcases hm with h | h | h | h | h | h | h | h | h <;> subst h <;> intro h <;> cases h
    · simp only [hm, not_false_eq_true, iff_true]
      simp only [recognizedMethods, List.mem_cons, List.mem_singleton, List.not_mem_nil,
        or_false, not_or] at hm
      obtain ⟨h1, h2, h3, h4, h5, h6, h7, h8, h9⟩ := hm
      exact ⟨"unsupported HTTP method " ++ strconv.Quote m,
        by simp [SetOperation, h1, h2, h3, h4, h5, h6, h7, h8, h9]⟩
  · by_cases hm : m ∈ recognizedMethods
    · simp only [hm, not_true_eq_false, iff_false, not_exists]
      intro msg
      rw [mustGetOperation_of_mem p m hm]
      intro h
      cases h
    · simp only [hm, not_false_eq_true, iff_true]
      exact ⟨_, (mustGetOperation_of_not_mem p m hm).1⟩
  · intro hm hkey
    rw [mustGetOperation_of_mem p m hm, ← get_operations,
      GoMap.get_eq_none_of_not_mem_keys _ _ hkey]

/-- C14, evaluated on the code: on the path item that has no operation, `MustGetOperation`
for `GET`, whose slot holds no operation, returns nil and does not panic. -/
theorem mustGetOperation_unpopulated :
    ({} : PathItem Nat Nat Nat).MustGetOperation "GET" = .ok none ∧
    "GET" ∉ ({} : PathItem Nat Nat Nat).Operations.keys ∧
    ¬ ∃ msg, ({} : PathItem Nat Nat Nat).MustGetOperation "GET" = .error msg := by
  refine ⟨rfl, by decide, ?_⟩
  rintro ⟨msg, h⟩
  cases h

/-- C15: the error codes are `NoSuchHTTPMethod = 10000`,
`NoSuchOperationIsDefinedInPath = 10001`, `NoResponseIsDefined = 20000` and
`NoResponseCodeInResponses = 20001`, and the four values are pairwise distinct. -/
theorem error_codes :
    errors.NoSuchHTTPMethod = 10000 ∧ errors.NoSuchOperationIsDefinedInPath = 10001 ∧
    errors.NoResponseIsDefined = 20000 ∧ errors.NoResponseCodeInResponses = 20001 ∧
    [errors.NoSuchHTTPMethod, errors.NoSuchOperationIsDefinedInPath,
      errors.NoResponseIsDefined, errors.NoResponseCodeInResponses].Pairwise (· ≠ ·) := by
  decide

/-- Counterexample to C16: the path item whose only content is an extension under the key
`GET` has an empty `Ref` and none of the fourteen reserved keys in its extensions, its
extension value is one that the generic decoding returns as it is, the example codecs
round-trip, and decoding its encoding succeeds with the GET slot populated: the result is not
equal to the path item. -/
theorem roundtrip_fails_upper_case_key :
    exampleUpperCaseKey.Ref = "" ∧
    (∀ k ∈ exampleUpperCaseKey.Extensions.keys, k ∉ reservedKeys) ∧
    (∀ e ∈ exampleUpperCaseKey.Extensions, json.valueInterface e.2 = e.2) ∧
    exampleCodec.RoundTrips ∧
    (UnmarshalJSON exampleCodec {} (exampleUpperCaseKey.MarshalJSON exampleCodec)).2 = none ∧
    (UnmarshalJSON exampleCodec {} (exampleUpperCaseKey.MarshalJSON exampleCodec)).1.Get =
      some "g" ∧
    exampleUpperCaseKey.Get = none ∧
    ¬ Equiv (UnmarshalJSON exampleCodec {} (exampleUpperCaseKey.MarshalJSON exampleCodec)).1
      exampleUpperCaseKey := by
  refine ⟨rfl, by decide, ?_, exampleCodec_roundTrips, rfl, rfl, rfl, fun h => ?_⟩
  · intro e he
    simp only [exampleUpperCaseKey, List.mem_singleton] at he
    subst he
    rfl
  have hg : (UnmarshalJSON exampleCodec {}
      (exampleUpperCaseKey.MarshalJSON exampleCodec)).1.Get = some "g" := rfl
  have := h.2.2.2.2.2.1
  rw [hg] at this
  cases this

/-- C16, amended: for a path item `n` whose `Ref` is empty, whose strings are valid UTF-8 (as
every string of the model is), whose extension keys match none of the fourteen reserved keys,
also when the case of the letters is ignored, and whose extension values are values that the
generic decoding returns as they are, and with collaborator codecs that round-trip, decoding
the encoding of `n` succeeds with a path item whose `Ref` is empty and that is equal to `n`
in summary, description, the nine operation slots, servers, parameters and extensions
(compared as maps). -/
theorem roundtrip_of_no_field_key (C : Codec Operation Server Parameter) (hC : C.RoundTrips)
    (r n : PathItem Operation Server Parameter) (href : n.Ref = "")
    (hnd : n.Extensions.keys.Nodup)
    (hkeys : ∀ k ∈ n.Extensions.keys, ∀ r ∈ reservedKeys,
      json.foldName k ≠ json.foldName r)
    (hval : ∀ e ∈ n.Extensions, json.valueInterface e.2 = e.2) :
    ∃ p, UnmarshalJSON C r (n.MarshalJSON C) = (p, none) ∧ p.Ref = "" ∧ Equiv p n := by
  obtain ⟨p, hp, hequiv⟩ := decode_encode_of_content C hC r n href hnd
    (fun k hk => json.findField_eq_none_of_foldName k (hkeys k hk)) hval
  exact ⟨p, hp, hequiv.1.trans href, hequiv⟩

/-- Witness of C16 as amended, on a path item with two operations and the extension `x-a`. -/
theorem roundtrip_of_no_field_key_witness :
    exampleCodec.RoundTrips ∧ exampleValidOperations.Ref = "" ∧
    exampleValidOperations.Extensions.keys.Nodup ∧
    (∀ k ∈ exampleValidOperations.Extensions.keys, ∀ r ∈ reservedKeys,
      json.foldName k ≠ json.foldName r) ∧
    (∀ e ∈ exampleValidOperations.Extensions, json.valueInterface e.2 = e.2) ∧
    ∃ p, UnmarshalJSON exampleCodec {} (exampleValidOperations.MarshalJSON exampleCodec) =
        (p, none) ∧ p.Ref = "" ∧ Equiv p exampleValidOperations :=
  have hval : ∀ e ∈ exampleValidOperations.Extensions, json.valueInterface e.2 = e.2 := by
    intro e he
    simp only [exampleValidOperations, List.mem_singleton] at he
    subst he
    rfl
  ⟨exampleCodec_roundTrips, rfl, by decide, by decide, hval,
   roundtrip_of_no_field_key exampleCodec exampleCodec_roundTrips {} exampleValidOperations rfl
     (by decide) (by decide) hval⟩

/-- C17: for a recognised method `m`, `SetOperation(m, op)` changes the slot for `m` only:
`Ref`, `Summary`, `Description`, `Servers`, `Parameters` and `Extensions` are as before, and
`MustGetOperation` for every other method returns what it returned before. -/
theorem setOperation_frame (p : PathItem Operation Server Parameter) (m : String)
    (op : Option Operation) (hm : m ∈ recognizedMethods) :
    ∃ p', p.SetOperation m op = .ok p' ∧
      p'.Ref = p.Ref ∧ p'.Summary = p.Summary ∧ p'.Description = p.Description ∧
      p'.Servers = p.Servers ∧ p'.Parameters = p.Parameters ∧
      p'.Extensions = p.Extensions ∧
      ∀ m', m' ≠ m → p'.MustGetOperation m' = p.MustGetOperation m' := by
  simp only [recognizedMethods, List.mem_cons, List.mem_singleton, List.not_mem_nil,
    or_false] at hm
  rcases hm with h | h | h | h | h | h | h | h | h <;> subst h <;>
    refine ⟨_, rfl, rfl, rfl, rfl, rfl, rfl, rfl, ?_⟩ <;> intro m' hne <;>
    simp only [MustGetOperation, hne, if_false]

/-- Witness of C17: setting POST on a path item that has a GET operation and a summary. -/
theorem setOperation_frame_witness :
    "POST" ∈ recognizedMethods ∧
    ∃ p', ({ Summary := "s", Get := some 1 } : PathItem Nat Nat Nat).SetOperation "POST"
        (some 2) = .ok p' ∧
      p'.Ref = "" ∧ p'.Summary = "s" ∧ p'.Description = "" ∧ p'.Servers = [] ∧
      p'.Parameters = [] ∧ p'.Extensions = [] ∧
      ∀ m', m' ≠ "POST" → p'.MustGetOperation m' =
        ({ Summary := "s", Get := some 1 } : PathItem Nat Nat Nat).MustGetOperation m' :=
  ⟨by decide, setOperation_frame { Summary := "s", Get := some 1 } "POST" (some 2) (by decide)⟩

/-- C18: `Validate` returns nil exactly when the operation of every populated slot (each of
the nine slots, as `MustGetOperation` reads it, that holds an operation) passes validation
and `validateExtensions` passes on the extensions of the path item. -/
theorem validate_eq_none_iff (V : Validators Context ValidationOption Operation)
    (p : PathItem Operation Server Parameter) (ctx : Context) (opts : List ValidationOption) :
    p.Validate V ctx opts = none ↔
      (∀ m ∈ recognizedMethods, ∀ op, p.MustGetOperation m = .ok (some op) →
        V.operationValidate (V.WithValidationOptions ctx opts) (some op) = none) ∧
      V.validateExtensions (V.WithValidationOptions ctx opts) p.Extensions = none := by
  rw [validate_eq_validateSlots, all_slots_pass_iff]
  by_cases hall : ∀ e ∈ p.slots, ∀ o, e.2 = some o →
      V.operationValidate (V.WithValidationOptions ctx opts) (some o) = none
  · rw [validateSlots_all_pass V _ _ _ hall]
    exact ⟨fun h => ⟨hall, h⟩, fun h => h.2⟩
  · have hex : ∃ e ∈ p.slots, ∃ o, e.2 = some o ∧
        V.operationValidate (V.WithValidationOptions ctx opts) (some o) ≠ none := by
      by_contra hcon
      apply hall
      intro e he o ho
      by_contra hne
      exact hcon ⟨e, he, o, ho, hne⟩
    obtain ⟨pre, post, M, op, err, hsplit, hpre, hop⟩ :=
      exists_first_failure V (V.WithValidationOptions ctx opts) p.slots hex
    rw [hsplit, validateSlots_first_failure V _ _ pre post M op err hpre hop, ← hsplit]
    constructor
    · intro h; cases h
    · intro h; exact absurd h.1 hall

/-- Witness of C18: with the GET and POST operations both failing `Validate` does not return
nil, and with a passing GET operation and no extension it returns nil. -/
theorem validate_eq_none_iff_witness :
    ({ Get := some "g", Post := some "p" } : PathItem String Int Bool).Validate
      exampleValidators () [] ≠ none ∧
    ({ Get := some "ok" } : PathItem String Int Bool).Validate exampleValidators () [] = none :=
  ⟨fun h =>
     absurd
       (((validate_eq_none_iff exampleValidators
         ({ Get := some "g", Post := some "p" } : PathItem String Int Bool) () []).1 h).1
         "GET" (by decide) "g" rfl)
       (by decide),
   (validate_eq_none_iff exampleValidators
     ({ Get := some "ok" } : PathItem String Int Bool) () []).2
     ⟨by
        intro m hm op hop
        simp only [recognizedMethods, List.mem_cons, List.mem_singleton, List.not_mem_nil,
          or_false] at hm
        rcases hm with h | h | h | h | h | h | h | h | h <;> subst h <;>
          first
            | (cases hop; done)
            | (cases hop; rfl),
      rfl⟩⟩

/-- C19: `Validate`, which gathers the populated slots in a map and sorts the method names,
returns for every path item and all validators what the straight-line validator returns,
whatever the order in which the keys of the map are gathered. -/
theorem validate_eq_straightLine (V : Validators Context ValidationOption Operation)
    (p : PathItem Operation Server Parameter) (ctx : Context) (opts : List ValidationOption) :
    p.Validate V ctx opts = validateStraightLine V p ctx opts ∧
    ∀ ranged : List String, ranged.Perm p.Operations.keys →
      validateRanged V p ctx opts ranged = validateStraightLine V p ctx opts := by
  constructor
  · rw [validate_eq_validateSlots, validateSlots_slots]
  · intro ranged hranged
    rw [validateRanged_eq_validateSlots V p ctx opts ranged hranged, validateSlots_slots]

/-- C20: when the structural decoding of the input fails, `UnmarshalJSON` returns the error
of the decoding and leaves the receiver, `Extensions` included, as it was. -/
theorem unmarshalJSON_atomic (C : Codec Operation Server Parameter)
    (r : PathItem Operation Server Parameter) (data : Json) (err : DecodeError)
    (h : json.unmarshalStruct C {} data = .error err) :
    UnmarshalJSON C r data = (r, some err) := by
  simp only [UnmarshalJSON, h]

/-- Witness of C20: a document whose `summary` is a number, decoded into a receiver that has
content. -/
theorem unmarshalJSON_atomic_witness :
    json.unmarshalStruct exampleCodec {} exampleIllTypedDocument =
      .error (.typeMismatch "summary") ∧
    UnmarshalJSON exampleCodec exampleContent exampleIllTypedDocument =
      (exampleContent, some (.typeMismatch "summary")) :=
  ⟨rfl, unmarshalJSON_atomic exampleCodec exampleContent exampleIllTypedDocument _ rfl⟩

end PathItem

end openapi3
